import Mathlib

/-!
# Verification of the include-discovery and enrichment-aggregation engine

This development embeds, in Lean, the core of the `mcp-adt` repository:

* `src/tools/includes_list.py` — recursive discovery of `INCLUDE` statements
  (`_parse_includes`, `_find_includes_recursive`, `get_includes_list`);
* `src/tools/enhancements.py` — kind probing (`_determine_object_type_and_path`),
  enhancement-XML fragment decoding (`_parse_enhancements_from_xml`),
  single-object fetch (`_get_enhancements_for_single_object`) and the
  recursive aggregation entry point (`get_enhancements`);
* `src/tools/enhancement_by_name.py` — the single-fragment decoder
  (`_parse_enhancement_source_from_xml`).

Python strings are modelled as `List Char`; the remote service (HTTP
responses to the fixed URL shapes the code builds) is modelled as explicit
environment structures; Python exceptions are modelled with `Except`.
The traversal of `_find_includes_recursive` is embedded with explicit fuel
plus an `ok` flag recording that fuel was never exhausted; a bound computed
from the (finite) remote source map is proved sufficient.
-/

/-- Python strings are modelled as lists of characters. -/
abbrev Str := List Char

/-- Python's `\s` on ASCII text: the whitespace characters recognised by
`re.sub(r'\s+', ' ', line)` and `.strip()`. -/
def isPySpace (c : Char) : Bool :=
  c = ' ' ∨ c = '\t' ∨ c = '\n' ∨ c = '\r' ∨ c = '\x0b' ∨ c = '\x0c'

/-- Worker for `collapseWS`: the flag records whether the previous character
was whitespace (so the current run's single `' '` has been emitted). -/
def collapseAux : Bool → Str → Str
  | _, [] => []
  | inRun, c :: cs =>
    if isPySpace c then
      if inRun then collapseAux true cs else ' ' :: collapseAux true cs
    else c :: collapseAux false cs

/-- `re.sub(r'\s+', ' ', s)`: every maximal run of whitespace becomes a single
space. -/
def collapseWS (l : Str) : Str := collapseAux false l

/-- Python `str.strip()`: drop leading and trailing whitespace. -/
def stripWS (l : Str) : Str :=
  ((l.dropWhile isPySpace).reverse.dropWhile isPySpace).reverse

/-- Python `str.upper()` restricted to the ASCII source text the tool
handles: uppercase each character. -/
def upperStr (l : Str) : Str := l.map Char.toUpper

/-- `clean_line = re.sub(r'\s+', ' ', line).strip().upper()` from
`_parse_includes`. -/
def cleanLine (line : Str) : Str := upperStr (stripWS (collapseWS line))

/-- Python `source_code.split('\n')` (`"".split('\n') = [""]`). -/
def splitLines : Str → List Str
  | [] => [[]]
  | c :: cs =>
    if c = '\n' then [] :: splitLines cs
    else
      match splitLines cs with
      | [] => [[c]]
      | l :: ls => (c :: l) :: ls

/-- The character class `[A-Z0-9_<>']` of the token group in
`re.match(r"^INCLUDE\s+([A-Z0-9_<>']+)\s*\.", clean_line)`. -/
def isTokChar (c : Char) : Bool :=
  ('A' ≤ c ∧ c ≤ 'Z') ∨ ('0' ≤ c ∧ c ≤ '9') ∨ c = '_' ∨ c = '<' ∨ c = '>' ∨ c = '\''

/-- `re.sub(r"[<>']", '', include_name)`: delete every `<`, `>`, `'`. -/
def stripDecoration (l : Str) : Str :=
  l.filter (fun c => ¬ (c = '<' ∨ c = '>' ∨ c = '\''))

/-- The regex `^INCLUDE\s+([A-Z0-9_<>']+)\s*\.` applied to `clean_line`,
given here the part of the line after the literal `INCLUDE`.  All three
character classes involved (`\s`, the token class, and the literal `.`) are
pairwise disjoint, so the greedy match is the run decomposition below. -/
def matchIncludeToken (l : Str) : Option Str :=
  if l.takeWhile isPySpace = [] then none
  else
    let l1 := l.dropWhile isPySpace
    let tok := l1.takeWhile isTokChar
    if tok = [] then none
    else
      match (l1.dropWhile isTokChar).dropWhile isPySpace with
      | '.' :: _ => some tok
      | _ => none

/-- One loop iteration of `_parse_includes`: examine a line and extend the
accumulator. -/
def parseIncludesLine (acc : List Str) (line : Str) : List Str :=
  let clean := cleanLine line
  if ("INCLUDE ".toList).isPrefixOf clean ∧ clean.contains '.' then
    match matchIncludeToken (clean.drop 7) with
    | some tok =>
      let include_name := stripDecoration tok
      if include_name ∈ acc then acc else acc ++ [include_name]
    | none => acc
  else acc

/-- `_parse_includes` from `src/tools/includes_list.py`: split the source
into lines and collect, in order and without repetition, the include name of
every `INCLUDE … .` line. -/
def parse_includes (source_code : Str) : List Str :=
  (splitLines source_code).foldl parseIncludesLine []

/-! ## The include traversal (`_find_includes_recursive`, `get_includes_list`) -/

/-- The source-fetch collaborator: the remote's answers, as a finite map from
(collection, upper-cased name) to the body of a successful (HTTP 200)
`/source/main` fetch.  A key that is absent is a unit whose source could not
be fetched (404, transport failure, …): `_fetch_source` returns `None` for
all of those alike. -/
abbrev SrcMap := List ((Str × Str) × Str)

/-- The string `"program"`. -/
def programTy : Str := "program".toList

/-- The string `"include"`. -/
def includeTy : Str := "include".toList

/-- `_fetch_source` from `src/tools/includes_list.py`: pick the collection
from `object_type` (`'program'` goes to `/programs/programs/`, anything else
to `/programs/includes/`), upper-case the name, and return the body only when
the fetch succeeded with nonempty text. -/
def fetch_source (env : SrcMap) (name object_type : Str) : Option Str :=
  let coll := if object_type = programTy then programTy else includeTy
  match env.lookup (coll, upperStr name) with
  | some s => if s = [] then none else some s
  | none => none

/-- `visited_key = f"{object_type}:{upper_object_name}"`. -/
def mkKey (object_type name : Str) : Str := object_type ++ ':' :: upperStr name

/-- The mutable state threaded through `_find_includes_recursive`:
`all_found_includes` and `visited` (modelled as lists managed as sets; the
`visited` list records one entry per processed key, most recent first), plus
an `ok` flag that records that the fuel of the embedding was never
exhausted. -/
structure TravSt where
  found : List Str
  visited : List Str
  ok : Bool
deriving DecidableEq

/-- `all_found_includes.add(include_name)`. -/
def insertFound (l : List Str) (x : Str) : List Str := if x ∈ l then l else x :: l

/-- `_find_includes_recursive` from `src/tools/includes_list.py`, with fuel.
A call whose key is already in `visited` returns at once; otherwise the key
is recorded, the unit's source is fetched (a failed fetch ends the branch),
and every parsed include is added to `found` and visited recursively with
object type `'include'`. -/
def find_includes_recursive (env : SrcMap) : Nat → Str → Str → TravSt → TravSt
  | 0, _, _, st => {st with ok := false}
  | fuel + 1, object_name, object_type, st =>
    let key := mkKey object_type object_name
    if key ∈ st.visited then st
    else
      let st1 : TravSt := {st with visited := key :: st.visited}
      match fetch_source env object_name object_type with
      | none => st1
      | some src =>
        (parse_includes src).foldl
          (fun s inc =>
            find_includes_recursive env fuel inc includeTy
              {s with found := insertFound s.found inc}) st1

/-- Every include name that any source of the remote map can mention. -/
def envNames (env : SrcMap) : List Str :=
  env.flatMap (fun p => parse_includes p.2)

/-- Every visited key a traversal from the given root can ever construct:
the root's own key, and an include key for every name mentioned by any
source of the remote map. -/
def keyUniverse (env : SrcMap) (root ty : Str) : List Str :=
  mkKey ty root :: (envNames env).map (mkKey includeTy)

/-- Fuel that `find_includes_recursive` is proved never to exhaust. -/
def travFuel (env : SrcMap) (root ty : Str) : Nat :=
  (keyUniverse env root ty).length + 1

/-- Lexicographic (code-point) strict order on strings, Python's `<`. -/
def strLtB : Str → Str → Bool
  | [], [] => false
  | [], _ :: _ => true
  | _ :: _, [] => false
  | a :: s, b :: t => if a < b then true else if a = b then strLtB s t else false

/-- Lexicographic reflexive order: the comparison `sorted` sorts by. -/
def strLeB (a b : Str) : Bool := strLtB a b || a == b

/-- Sorted insertion into a lexicographically sorted list. -/
def insertSorted (x : Str) : List Str → List Str
  | [] => [x]
  | y :: ys => if strLeB x y then x :: y :: ys else y :: insertSorted x ys

/-- Python's `sorted` on a list of pairwise distinct strings: any
comparison sort yields the same sequence, given here as insertion sort. -/
def sortStrs : List Str → List Str
  | [] => []
  | x :: xs => insertSorted x (sortStrs xs)

/-- The dictionary `get_includes_list` returns. -/
structure IncludesResult where
  object_name : Str
  object_type : Str
  includes_count : Nat
  includes : List Str
  response_text : Str
deriving DecidableEq

/-- The `response_text` field built at lines 151–154 of
`src/tools/includes_list.py`. -/
def includesResponseText (object_name object_type : Str) (includes_list : List Str) : Str :=
  if includes_list ≠ [] then
    "Found ".toList ++ (Nat.repr includes_list.length).toList
      ++ " includes in ".toList ++ object_type ++ " '".toList ++ object_name
      ++ "':\n".toList ++ List.intercalate "\n".toList includes_list
  else
    "No includes found in ".toList ++ object_type ++ " '".toList
      ++ object_name ++ "'.".toList

/-- `get_includes_list` from `src/tools/includes_list.py`: validate the
arguments (a `ValueError`, modelled as `Except.error`, for an empty name or
a kind other than program/include), run the recursive traversal from empty
`found`/`visited` sets, and return the sorted include list with its
metadata. -/
def get_includes_list (env : SrcMap) (object_name object_type : Str) :
    Except Str IncludesResult :=
  if object_name = [] then .error "object_name is required".toList
  else if ¬ (object_type = programTy ∨ object_type = includeTy) then
    .error "object_type must be either 'program' or 'include'".toList
  else
    let st := find_includes_recursive env (travFuel env object_name object_type)
      object_name object_type ⟨[], [], true⟩
    let includes_list := sortStrs st.found
    .ok { object_name := object_name
          object_type := object_type
          includes_count := includes_list.length
          includes := includes_list
          response_text := includesResponseText object_name object_type includes_list }

/-- How many keys of the universe `U` are still unvisited. -/
def keysLeft (U visited : List Str) : Nat :=
  U.countP (fun k => decide (k ∉ visited))

/-! ## Fuel sufficiency and stabilisation -/

/-- The key universe is closed under the keys the traversal constructs. -/
def envClosed (env : SrcMap) (U : List Str) : Prop :=
  ∀ p ∈ env, ∀ inc ∈ parse_includes p.2, mkKey includeTy inc ∈ U

/-! ## Reachability: soundness and completeness of the traversal -/

/-- The direct includes the traversal sees for a unit: the parse of its
fetched source, or nothing when the fetch fails. -/
def parseOf (env : SrcMap) (ty name : Str) : List Str :=
  match fetch_source env name ty with
  | some src => parse_includes src
  | none => []

/-- The names transitively reachable from the root through the textual
include relation, exactly as the traversal resolves it: the root is read
with its own kind, every discovered include with kind `'include'`. -/
inductive Reach (env : SrcMap) (root ty : Str) : Str → Prop
  | base {n : Str} : n ∈ parseOf env ty root → Reach env root ty n
  | step {m n : Str} : Reach env root ty m → n ∈ parseOf env includeTy m →
      Reach env root ty n

/-! ## `get_includes_list` bridge -/

/-- The traversal state `get_includes_list` builds: the proven-sufficient
fuel, starting from empty `found` and `visited` sets. -/
def travRun (env : SrcMap) (root ty : Str) : TravSt :=
  find_includes_recursive env (travFuel env root ty) root ty ⟨[], [], true⟩

/-- A two-element cyclic include graph: program `A` includes `B`, include
`B` includes `A`, include `A` includes `B` — so the root is reachable from
itself. -/
def cycEnv : SrcMap :=
  [((programTy, "A".toList), "INCLUDE b.".toList),
   ((includeTy, "B".toList), "INCLUDE a.".toList),
   ((includeTy, "A".toList), "INCLUDE b.".toList)]

/-- `cycEnv` with its include statements written upper-case. -/
def cycEnvU : SrcMap :=
  [((programTy, "A".toList), "INCLUDE B.".toList),
   ((includeTy, "B".toList), "INCLUDE A.".toList),
   ((includeTy, "A".toList), "INCLUDE B.".toList)]

/-! ## Enhancement payload decoding
(`_parse_enhancements_from_xml` from `src/tools/enhancements.py` and
`_parse_enhancement_source_from_xml` from `src/tools/enhancement_by_name.py`).
The regexes involved have pairwise-disjoint character classes at every
boundary, so each is embedded as a deterministic scanner; `re.search` and
`re.finditer` become a left-to-right scan. -/

/-- One attempt of `<enh:source[^>]*>([^<]*)</enh:source>` at the current
position: the captured body and the remainder after the whole match. -/
def enhSourceAt (l : Str) : Option (Str × Str) :=
  if ("<enh:source".toList).isPrefixOf l then
    match (l.drop 11).dropWhile (fun c => ¬ c = '>') with
    | '>' :: rest2 =>
      let body := rest2.takeWhile (fun c => ¬ c = '<')
      let rest3 := rest2.dropWhile (fun c => ¬ c = '<')
      if ("</enh:source>".toList).isPrefixOf rest3 then
        some (body, rest3.drop 13)
      else none
    | _ => none
  else none

/-- `re.finditer` of the fragment pattern: every non-overlapping match, left
to right, paired with the text before the match (Python's
`xml_data[:source_start]`, used for the attribute back-search). -/
def enhSourceScanAux : Nat → Str → Str → List (Str × Str)
  | 0, _, _ => []
  | fuel + 1, pre, l =>
    match l with
    | [] => []
    | c :: rest =>
      match enhSourceAt l with
      | some (body, after) =>
        (pre, body) :: enhSourceScanAux fuel (pre ++ l.take (l.length - after.length)) after
      | none => enhSourceScanAux fuel (pre ++ [c]) rest

/-- `re.search` modelled as a left-to-right scan for the first position
where the pattern matches. -/
def scanFirst {α : Type _} (pat : Str → Option α) : Str → Option α
  | [] => none
  | l@(_ :: rest) =>
    match pat l with
    | some v => some v
    | none => scanFirst pat rest

/-- `adtcore:name="([^"]*)"[^>]*$` tried at one position of the prefix. -/
def nameAttrAt (l : Str) : Option Str :=
  if ("adtcore:name=\"".toList).isPrefixOf l then
    let rest := l.drop 14
    let cap := rest.takeWhile (fun c => ¬ c = '"')
    match rest.dropWhile (fun c => ¬ c = '"') with
    | '"' :: rest2 => if rest2.all (fun c => ¬ c = '>') then some cap else none
    | _ => none
  else none

/-- `adtcore:type="([^"]*)"[^>]*$` tried at one position of the prefix. -/
def typeAttrAt (l : Str) : Option Str :=
  if ("adtcore:type=\"".toList).isPrefixOf l then
    let rest := l.drop 14
    let cap := rest.takeWhile (fun c => ¬ c = '"')
    match rest.dropWhile (fun c => ¬ c = '"') with
    | '"' :: rest2 => if rest2.all (fun c => ¬ c = '>') then some cap else none
    | _ => none
  else none

/-- The `EnhancementImplementation` record of `src/tools/enhancements.py`. -/
structure EnhancementImplementation where
  name : Str
  type_ : Str
  source_code : Option Str
  description : Option Str
deriving DecidableEq

/-- `_parse_enhancements_from_xml`.  `b64` models
`base64.b64decode(...).decode('utf-8')`: `none` when either step raises, in
which case the raw text is kept.  A fragment's name and kind come from the
last-before-match `adtcore:name`/`adtcore:type` attributes when present and
nonempty, else a positional placeholder and the generic kind. -/
def parse_enhancements_from_xml (b64 : Str → Option Str) (xml_data : Str) :
    List EnhancementImplementation :=
  (enhSourceScanAux xml_data.length [] xml_data).mapIdx (fun index m =>
    { name :=
        match scanFirst nameAttrAt m.1 with
        | some v =>
          if v ≠ [] then v
          else "enhancement_".toList ++ (Nat.repr (index + 1)).toList
        | none => "enhancement_".toList ++ (Nat.repr (index + 1)).toList
      type_ :=
        match scanFirst typeAttrAt m.1 with
        | some v => if v ≠ [] then v else "enhancement".toList
        | none => "enhancement".toList
      source_code :=
        if m.2 ≠ [] then
          some (match b64 m.2 with
            | some decoded => decoded
            | none => m.2)
        else none
      description := none })

/-- `<(?:source|enh:source)[^>]*>([^<]*)</(?:source|enh:source)>` tried at
one position. -/
def srcTagAt (l : Str) : Option Str :=
  let after :=
    if ("<source".toList).isPrefixOf l then some (l.drop 7)
    else if ("<enh:source".toList).isPrefixOf l then some (l.drop 11)
    else none
  match after with
  | none => none
  | some rest1 =>
    match rest1.dropWhile (fun c => ¬ c = '>') with
    | '>' :: rest2 =>
      let body := rest2.takeWhile (fun c => ¬ c = '<')
      let rest3 := rest2.dropWhile (fun c => ¬ c = '<')
      if ("</source>".toList).isPrefixOf rest3 ∨
          ("</enh:source>".toList).isPrefixOf rest3 then
        some body
      else none
    | _ => none

/-- The lazy `(.*?)\]\]>\s*</(?:source|enh:source)>` part of the CDATA
pattern: the shortest capture whose `]]>` is followed by whitespace and a
closing tag. -/
def cdataBody : Nat → Str → Option Str
  | 0, _ => none
  | fuel + 1, l =>
    if ("]]>".toList).isPrefixOf l ∧
        (let rest4 := (l.drop 3).dropWhile isPySpace
         ("</source>".toList).isPrefixOf rest4 ∨
           ("</enh:source>".toList).isPrefixOf rest4) then
      some []
    else
      match l with
      | [] => none
      | c :: rest => (cdataBody fuel rest).map (fun cap => c :: cap)

/-- `<(?:source|enh:source)[^>]*>\s*<!\[CDATA\[(.*?)\]\]>\s*</(?:source|enh:source)>`
(with DOTALL) tried at one position. -/
def cdataAt (l : Str) : Option Str :=
  let after :=
    if ("<source".toList).isPrefixOf l then some (l.drop 7)
    else if ("<enh:source".toList).isPrefixOf l then some (l.drop 11)
    else none
  match after with
  | none => none
  | some rest1 =>
    match rest1.dropWhile (fun c => ¬ c = '>') with
    | '>' :: rest2 =>
      let rest3 := rest2.dropWhile isPySpace
      if ("<![CDATA[".toList).isPrefixOf rest3 then
        cdataBody (rest3.drop 9).length (rest3.drop 9)
      else none
    | _ => none

/-- `_parse_enhancement_source_from_xml` from
`src/tools/enhancement_by_name.py`: try the Base64 tagged-element layout; on
a nonempty capture try to decode, falling through to the CDATA layout when
decoding fails; a nonempty CDATA capture is returned verbatim; otherwise the
whole payload is returned unchanged. -/
def parse_enhancement_source_from_xml (b64 : Str → Option Str) (xml_data : Str) : Str :=
  let cdataStep : Str :=
    match scanFirst cdataAt xml_data with
    | some cap => if cap ≠ [] then cap else xml_data
    | none => xml_data
  match scanFirst srcTagAt xml_data with
  | some body =>
    if body ≠ [] then
      match b64 body with
      | some decoded => decoded
      | none => cdataStep
    else cdataStep
  | none => cdataStep

/-! ## Kind probing and enhancement aggregation (`src/tools/enhancements.py`) -/

/-- One `session.get` at a probe endpoint: `exn` models a raised transport
exception, `resp` a returned response with its status and body. -/
inductive ProbeRes where
  | exn : ProbeRes
  | resp (status : Nat) (body : Str) : ProbeRes
deriving DecidableEq

/-- The remote collaborator of the Enrichment Aggregator: the source map the
Include Resolver reads, the three kind-probe collections, and the
enhancement endpoint (keyed by the resolved kind, the object name and the
optional context parameter, which together determine the request URL). -/
structure EnhRemote where
  srcMap : SrcMap
  classProbe : Str → ProbeRes
  programProbe : Str → ProbeRes
  includeProbe : Str → ProbeRes
  enrich : Str → Str → Option Str → ProbeRes

/-- The Python exceptions the enhancement tools raise. -/
inductive PyErr where
  | adtError (status : Nat) (message : Str)
  | httpError (status : Nat) (body : Str)
  | requestExn
  | connError (message : Str)
  | valueError (message : Str)
deriving DecidableEq

/-- Whether a probe came back with HTTP 200.  A raised exception inside the
probe's `try` block is caught and treated like a non-200 status: the cascade
moves on. -/
def probe_is_200 : ProbeRes → Bool
  | .resp status _ => status = 200
  | .exn => false

/-- `adtcore:uri="([^"]+)"` tried right after the backtracked `[^>]+` run. -/
def uriCapAt (l : Str) : Option Str :=
  if ("adtcore:uri=\"".toList).isPrefixOf l then
    let rest := l.drop 13
    let cap := rest.takeWhile (fun c => ¬ c = '"')
    if cap ≠ [] then
      match rest.dropWhile (fun c => ¬ c = '"') with
      | '"' :: _ => some cap
      | _ => none
    else none
  else none

/-- Greedy backtracking of `[^>]+` in the contextRef pattern: try the
longest run first, shrinking one character at a time, never to zero. -/
def ctxRefBack (rest : Str) : Nat → Option Str
  | 0 => none
  | k + 1 =>
    match uriCapAt (rest.drop (k + 1)) with
    | some cap => some cap
    | none => ctxRefBack rest k

/-- `include:contextRef[^>]+adtcore:uri="([^"]+)"` tried at one position. -/
def ctxRefAt (l : Str) : Option Str :=
  if ("include:contextRef".toList).isPrefixOf l then
    let rest := l.drop 18
    ctxRefBack rest (rest.takeWhile (fun c => ¬ c = '>')).length
  else none

/-- The contextRef search of `_determine_object_type_and_path`. -/
def find_context_ref (xml : Str) : Option Str := scanFirst ctxRefAt xml

/-- The record `_determine_object_type_and_path` returns. -/
structure ObjInfo where
  type_ : Str
  base_path : Str
  context : Option Str
deriving DecidableEq

/-- `_determine_object_type_and_path`: probe as Class, then Program, then
Include, taking the first collection that answers 200; a probe's transport
failure or non-200 status moves the cascade on (for the Include probe, a
transport failure reaches the outer handler and becomes an `AdtError 400`).
An Include resolves its parent-program context from the manual hint if
given, else from the `include:contextRef` metadata back-reference, else the
call fails. -/
def determine_object_type_and_path (R : EnhRemote) (object_name : Str)
    (manual_program_context : Option Str) : Except PyErr ObjInfo :=
  if probe_is_200 (R.classProbe object_name) then
    .ok { type_ := "class".toList
          base_path := "/sap/bc/adt/oo/classes/".toList ++ object_name
            ++ "/source/main/enhancements/elements".toList
          context := none }
  else if probe_is_200 (R.programProbe object_name) then
    .ok { type_ := "program".toList
          base_path := "/sap/bc/adt/programs/programs/".toList ++ object_name
            ++ "/source/main/enhancements/elements".toList
          context := none }
  else
    match R.includeProbe object_name with
    | .exn =>
      .error (.adtError 400 ("Failed to determine object type for: ".toList ++ object_name))
    | .resp status body =>
      if status = 200 then
        let base := "/sap/bc/adt/programs/includes/".toList ++ object_name
          ++ "/source/main/enhancements/elements".toList
        match manual_program_context with
        | some prog =>
          .ok { type_ := "include".toList, base_path := base
                context := some ("/sap/bc/adt/programs/programs/".toList ++ prog) }
        | none =>
          match find_context_ref body with
          | some ctx =>
            .ok { type_ := "include".toList, base_path := base, context := some ctx }
          | none =>
            .error (.adtError 400
              ("Could not determine parent program context for include: ".toList
                ++ object_name))
      else
        .error (.adtError 400
          ("Could not determine object type for: ".toList ++ object_name
            ++ ". Object is neither a valid class, program, nor include.".toList))

/-- The single-object response dictionary of
`_get_enhancements_for_single_object`. -/
structure SingleResp where
  object_name : Str
  object_type : Str
  context : Option Str
  enhancements : List EnhancementImplementation
  enhancement_count : Nat
  raw_xml : Str
deriving DecidableEq

/-- `_get_enhancements_for_single_object`: resolve the kind (and context),
fetch the enhancement payload (`raise_for_status` turns a 4xx/5xx answer
into an `HTTPError`, a transport failure raises a `RequestException`), and
parse it when the answer is 200 with a nonempty body. -/
def get_enhancements_for_single_object (R : EnhRemote) (b64 : Str → Option Str)
    (object_name : Str) (manual_program_context : Option Str) :
    Except PyErr SingleResp :=
  match determine_object_type_and_path R object_name manual_program_context with
  | .error e => .error e
  | .ok info =>
    match R.enrich info.type_ object_name info.context with
    | .exn => .error .requestExn
    | .resp status body =>
      if 400 ≤ status then .error (.httpError status body)
      else if status = 200 ∧ body ≠ [] then
        let enhancements := parse_enhancements_from_xml b64 body
        .ok { object_name := object_name
              object_type := info.type_
              context := info.context
              enhancements := enhancements
              enhancement_count := enhancements.length
              raw_xml := body }
      else
        .error (.adtError status
          ("Failed to retrieve enhancements for ".toList ++ object_name))

/-- The combined response of a nested `get_enhancements` call. -/
structure CombinedResp where
  main_object_name : Str
  main_object_type : Str
  include_nested : Bool
  total_objects_analyzed : Nat
  total_enhancements_found : Nat
  objects : List SingleResp
deriving DecidableEq

/-- `get_enhancements` returns the single-object dictionary or, when
`include_nested` is set, the combined dictionary. -/
inductive GetEnhResult where
  | single (r : SingleResp)
  | nested (r : CombinedResp)
deriving DecidableEq

/-- The wrapping of errors escaping `get_enhancements`'s `try` block: an
`HTTPError` becomes an `AdtError` (404 specially worded), a
`RequestException` becomes a `ConnectionError`; `AdtError` and `ValueError`
pass through unchanged. -/
def wrapGetEnhErr (object_name : Str) : PyErr → PyErr
  | .httpError status body =>
    if status = 404 then
      .adtError 404 ("Enhancements not found for object ".toList ++ object_name)
    else .adtError status body
  | .requestExn => .connError "Network error retrieving enhancements".toList
  | e => e

/-- `get_enhancements` from `src/tools/enhancements.py`: validate the name,
fetch the main object, and — when `include_nested` — discover every nested
include with `get_includes_list` and fetch each one's enhancements,
skipping (with only a log line) any include whose fetch raises, then build
the combined totals. -/
def get_enhancements (R : EnhRemote) (b64 : Str → Option Str) (object_name : Str)
    (program : Option Str) (include_nested : Bool) : Except PyErr GetEnhResult :=
  if object_name = [] then .error (.valueError "object_name is required".toList)
  else
    let inner : Except PyErr GetEnhResult :=
      match get_enhancements_for_single_object R b64 object_name program with
      | .error e => .error e
      | .ok main =>
        if ¬ include_nested then .ok (.single main)
        else
          match get_includes_list R.srcMap object_name main.object_type with
          | .error e => .error (.valueError e)
          | .ok includes_result =>
            let all := includes_result.includes.foldl (fun acc include_name =>
              match get_enhancements_for_single_object R b64 include_name program with
              | .ok r => acc ++ [r]
              | .error _ => acc) [main]
            .ok (.nested
              { main_object_name := object_name
                main_object_type := main.object_type
                include_nested := true
                total_objects_analyzed := all.length
                total_enhancements_found := (all.map (fun r => r.enhancement_count)).sum
                objects := all })
    match inner with
    | .error e => .error (wrapGetEnhErr object_name e)
    | .ok r => .ok r

/-- Decidable equality for `Except` results, used to evaluate concrete
scenarios. -/
instance exceptDecEq {ε α : Type _} [DecidableEq ε] [DecidableEq α] :
    DecidableEq (Except ε α) := fun a b =>
  match a, b with
  | .error e, .error f =>
    if h : e = f then .isTrue (by rw [h])
    else .isFalse (fun hc => h (by injection hc))
  | .ok x, .ok y =>
    if h : x = y then .isTrue (by rw [h])
    else .isFalse (fun hc => h (by injection hc))
  | .error _, .ok _ => .isFalse (fun hc => Except.noConfusion hc)
  | .ok _, .error _ => .isFalse (fun hc => Except.noConfusion hc)

/-- A stand-in for the Base64-decode collaborator in concrete scenarios. -/
def b64c : Str → Option Str := fun _ => some "X".toList

/-- Partial-failure scenario: program `A` includes `B`, `C` and `D`; every
unit resolves as a program; `C`'s enrichment endpoint answers 500. -/
def failEnv : EnhRemote :=
  { srcMap := [((programTy, "A".toList), "INCLUDE b.\nINCLUDE c.\nINCLUDE d.".toList)]
    classProbe := fun _ => .resp 404 []
    programProbe := fun _ => .resp 200 []
    includeProbe := fun _ => .exn
    enrich := fun _ name _ =>
      if name = "C".toList then .resp 500 "err".toList
      else if name = "A".toList then
        .resp 200 "<enh:source>QQ==</enh:source>".toList
      else .resp 200 "<none/>".toList }

/-- `failEnv` with a different failure mode for `C` (a 404 instead of a
500). -/
def failEnv2 : EnhRemote :=
  { failEnv with
    enrich := fun ty name ctx =>
      if name = "C".toList then .resp 404 "nf".toList
      else failEnv.enrich ty name ctx }

/-- The cyclic graph `cycEnv` as an enrichment remote: every unit resolves
as a program carrying one enhancement fragment. -/
def cycRemote : EnhRemote :=
  { srcMap := cycEnv
    classProbe := fun _ => .resp 404 []
    programProbe := fun _ => .resp 200 []
    includeProbe := fun _ => .exn
    enrich := fun _ _ _ => .resp 200 "<enh:source>QQ==</enh:source>".toList }

/-- A remote on which only the Program probe reports existence. -/
def progOnlyRemote : EnhRemote :=
  { srcMap := []
    classProbe := fun _ => .resp 404 []
    programProbe := fun _ => .resp 200 []
    includeProbe := fun _ => .exn
    enrich := fun _ _ _ => .exn }

example : parse_includes "INCLUDE ztest.".toList = ["ZTEST".toList] := by decide

example : parse_includes "  include   z1 .\nWRITE x.\nINCLUDE <z2>.".toList
    = ["Z1".toList, "Z2".toList] := by decide

example : parse_includes "INCLUDE <>.".toList = [[]] := by decide

example : parse_includes "INCLUDE z1.\ninclude Z1.".toList = ["Z1".toList] := by decide

example :
    ((get_includes_list
      [((programTy, "A".toList), "INCLUDE b.\nINCLUDE c.".toList),
       ((includeTy, "B".toList), "INCLUDE d.".toList)]
      "a".toList programTy).toOption.map (fun r => r.includes))
    = some ["B".toList, "C".toList, "D".toList] := by decide

example :
    ((get_includes_list
      [((programTy, "A".toList), "INCLUDE b.".toList),
       ((includeTy, "B".toList), "INCLUDE a.".toList),
       ((includeTy, "A".toList), "INCLUDE b.".toList)]
      "A".toList programTy).toOption.map (fun r => r.includes))
    = some ["A".toList, "B".toList] := by decide

/-! ## Basic lemmas: characters, folds, lookups -/

/-- A generic invariant rule for `List.foldl`. -/
theorem foldl_inv {σ α : Type _} {P : σ → Prop} (g : σ → α → σ) (l : List α) (s : σ)
    (hs : P s) (h : ∀ s a, a ∈ l → P s → P (g s a)) : P (l.foldl g s) :=
  List.foldlRecOn l g s hs (fun b hb a ha => h b a ha hb)

/-- A successful association-list lookup witnesses membership. -/
theorem lookup_mem {α β : Type _} [BEq α] [LawfulBEq α] :
    ∀ {l : List (α × β)} {k : α} {v : β}, l.lookup k = some v → (k, v) ∈ l := by
  intro l
  induction l with
  | nil => intro k v h; simp [List.lookup] at h
  | cons p l ih =>
    intro k v h
    rw [List.lookup] at h
    by_cases hk : k == p.1
    · rw [hk] at h
      simp only [Option.some.injEq] at h
      have hp : k = p.1 := eq_of_beq hk
      have hkv : (k, v) = p := by rw [hp, ← h]
      rw [hkv]
      exact List.mem_cons_self _ _
    · rw [Bool.eq_false_iff.mpr hk] at h
      exact List.mem_cons_of_mem _ (ih h)

/-- An uppercase letter is fixed by `Char.toUpper`. -/
theorem toUpper_fix_AZ {c : Char} (h1 : 'A' ≤ c) (h2 : c ≤ 'Z') : c.toUpper = c := by
  unfold Char.toUpper
  rw [if_neg]
  rw [Char.le_def, UInt32.le_def, BitVec.le_def] at h1 h2
  show ¬ (c.toNat ≥ 97 ∧ c.toNat ≤ 122)
  have hA : 'A'.val.toBitVec.toNat = 65 := by decide
  have hZ : 'Z'.val.toBitVec.toNat = 90 := by decide
  have hc : c.toNat = c.val.toBitVec.toNat := rfl
  omega

/-- A digit is fixed by `Char.toUpper`. -/
theorem toUpper_fix_digit {c : Char} (h1 : '0' ≤ c) (h2 : c ≤ '9') : c.toUpper = c := by
  unfold Char.toUpper
  rw [if_neg]
  rw [Char.le_def, UInt32.le_def, BitVec.le_def] at h1 h2
  show ¬ (c.toNat ≥ 97 ∧ c.toNat ≤ 122)
  have h0 : '0'.val.toBitVec.toNat = 48 := by decide
  have h9 : '9'.val.toBitVec.toNat = 57 := by decide
  have hc : c.toNat = c.val.toBitVec.toNat := rfl
  omega

/-- Every character of an include name produced by the regex token class,
once the decoration characters are removed, is fixed by upper-casing. -/
theorem toUpper_fix_bare {c : Char} (htok : isTokChar c = true)
    (hbare : ¬ (c = '<' ∨ c = '>' ∨ c = '\'')) : c.toUpper = c := by
  simp only [isTokChar, Bool.or_eq_true, decide_eq_true_eq] at htok
  rcases htok with ⟨h1, h2⟩ | ⟨h1, h2⟩ | h | h | h | h
  · exact toUpper_fix_AZ h1 h2
  · exact toUpper_fix_digit h1 h2
  · rw [h]; decide
  · exact absurd (Or.inl h) hbare
  · exact absurd (Or.inr (Or.inl h)) hbare
  · exact absurd (Or.inr (Or.inr h)) hbare

/-- The token the include regex extracts consists of token-class characters. -/
theorem matchIncludeToken_chars {l tok : Str} (h : matchIncludeToken l = some tok) :
    ∀ c ∈ tok, isTokChar c = true := by
  unfold matchIncludeToken at h
  split at h
  · exact absurd h (by simp)
  · dsimp only at h
    split at h
    · exact absurd h (by simp)
    · split at h
      · simp only [Option.some.injEq] at h
        intro c hc
        rw [← h] at hc
        exact List.mem_takeWhile_imp hc
      · exact absurd h (by simp)

/-- Every name `_parse_includes` returns is invariant under upper-casing. -/
theorem parse_includes_upper {s n : Str} (h : n ∈ parse_includes s) : upperStr n = n := by
  unfold parse_includes at h
  have := foldl_inv (P := fun acc => ∀ x ∈ acc, upperStr x = x)
    parseIncludesLine (splitLines s) [] (by intro x hx; cases hx) ?step
  · exact this n h
  · intro acc line _ hacc x hx
    unfold parseIncludesLine at hx
    dsimp only at hx
    split at hx
    · split at hx
      · next tok htok =>
        split at hx
        · exact hacc x hx
        · rcases List.mem_append.mp hx with hx | hx
          · exact hacc x hx
          · have hxeq : x = stripDecoration tok := List.mem_singleton.mp hx
            subst hxeq
            unfold upperStr
            have : ∀ c ∈ stripDecoration tok, c.toUpper = c := by
              intro c hc
              unfold stripDecoration at hc
              have hmem := List.mem_filter.mp hc
              exact toUpper_fix_bare (matchIncludeToken_chars htok c hmem.1)
                (by simpa using hmem.2)
            calc (stripDecoration tok).map Char.toUpper
                = (stripDecoration tok).map id := List.map_congr_left (by simpa using this)
              _ = stripDecoration tok := List.map_id _
      · exact hacc x hx
    · exact hacc x hx

/-! ## Traversal invariants -/

/-- The found and visited sets only grow. -/
theorem trav_le (env : SrcMap) : ∀ (fuel : Nat) (name ty : Str) (st : TravSt),
    st.found ⊆ (find_includes_recursive env fuel name ty st).found ∧
    st.visited ⊆ (find_includes_recursive env fuel name ty st).visited := by
  intro fuel
  induction fuel with
  | zero =>
    intro name ty st
    rw [find_includes_recursive]
    exact ⟨fun _ h => h, fun _ h => h⟩
  | succ fuel ih =>
    intro name ty st
    rw [find_includes_recursive]
    dsimp only
    split
    · exact ⟨fun _ h => h, fun _ h => h⟩
    · split
      · exact ⟨fun _ h => h, fun _ h => List.mem_cons_of_mem _ h⟩
      · apply foldl_inv
          (P := fun (s : TravSt) => st.found ⊆ s.found ∧ st.visited ⊆ s.visited)
        · exact ⟨fun _ h => h, fun _ h => List.mem_cons_of_mem _ h⟩
        · intro s inc _ hs
          have h2 := ih inc includeTy {s with found := insertFound s.found inc}
          constructor
          · refine hs.1.trans (.trans ?_ h2.1)
            intro x hx
            unfold insertFound
            split
            · exact hx
            · exact List.mem_cons_of_mem _ hx
          · exact hs.2.trans h2.2

/-- The `ok` flag never turns from false to true. -/
theorem trav_ok_le (env : SrcMap) : ∀ (fuel : Nat) (name ty : Str) (st : TravSt),
    (find_includes_recursive env fuel name ty st).ok = true → st.ok = true := by
  intro fuel
  induction fuel with
  | zero =>
    intro name ty st h
    rw [find_includes_recursive] at h
    exact absurd h (by simp)
  | succ fuel ih =>
    intro name ty st h
    rw [find_includes_recursive] at h
    dsimp only at h
    split at h
    · exact h
    · split at h
      · exact h
      · have : ∀ (l : List Str) (s : TravSt),
            ((l.foldl (fun s inc =>
              find_includes_recursive env fuel inc includeTy
                {s with found := insertFound s.found inc}) s).ok = true) → s.ok = true := by
          intro l
          induction l with
          | nil => intro s h; exact h
          | cons a l ihl =>
            intro s h
            rw [List.foldl_cons] at h
            have h2 := ihl _ h
            have h3 := ih a includeTy _ h2
            exact h3
        have hres := this _ _ h
        exact hres

/-- Processing preserves distinctness of both the visited keys and the
found names. -/
theorem trav_nodup (env : SrcMap) : ∀ (fuel : Nat) (name ty : Str) (st : TravSt),
    st.visited.Nodup → st.found.Nodup →
    (find_includes_recursive env fuel name ty st).visited.Nodup ∧
    (find_includes_recursive env fuel name ty st).found.Nodup := by
  intro fuel
  induction fuel with
  | zero =>
    intro name ty st h1 h2
    rw [find_includes_recursive]
    exact ⟨h1, h2⟩
  | succ fuel ih =>
    intro name ty st h1 h2
    rw [find_includes_recursive]
    dsimp only
    split
    · exact ⟨h1, h2⟩
    · next hkey =>
      split
      · exact ⟨List.nodup_cons.mpr ⟨hkey, h1⟩, h2⟩
      · apply foldl_inv (P := fun (s : TravSt) => s.visited.Nodup ∧ s.found.Nodup)
        · exact ⟨List.nodup_cons.mpr ⟨hkey, h1⟩, h2⟩
        · intro s inc _ hs
          apply ih
          · exact hs.1
          · show (insertFound s.found inc).Nodup
            unfold insertFound
            split
            · exact hs.2
            · next hmem => exact List.nodup_cons.mpr ⟨hmem, hs.2⟩

theorem keysLeft_le (U visited : List Str) : keysLeft U visited ≤ U.length :=
  List.countP_le_length _

theorem keysLeft_anti {v v' : List Str} (U : List Str) (h : v ⊆ v') :
    keysLeft U v' ≤ keysLeft U v := by
  apply List.countP_mono_left
  intro k _ hk
  simp only [decide_eq_true_eq] at hk ⊢
  exact fun hmem => hk (h hmem)

theorem keysLeft_cons_lt {U v : List Str} {key : Str}
    (hU : key ∈ U) (hv : key ∉ v) : keysLeft U (key :: v) < keysLeft U v := by
  induction U with
  | nil => cases hU
  | cons u U ih =>
    unfold keysLeft at ih ⊢
    have hmono : List.countP (fun k => decide (k ∉ key :: v)) U ≤
        List.countP (fun k => decide (k ∉ v)) U :=
      keysLeft_anti U (fun x hx => List.mem_cons_of_mem _ hx)
    by_cases hu : u = key
    · subst hu
      rw [List.countP_cons_of_neg _ _ (by simp),
        List.countP_cons_of_pos _ _ (by simpa using hv)]
      omega
    · have hU' : key ∈ U := by
        rcases List.mem_cons.mp hU with h | h
        · exact absurd h.symm hu
        · exact h
      by_cases hu2 : u ∈ v
      · rw [List.countP_cons_of_neg _ _ (by simp [List.mem_cons.mpr (Or.inr hu2)]),
          List.countP_cons_of_neg _ _ (by simpa using hu2)]
        exact ih hU'
      · rw [List.countP_cons_of_pos _ _ (by
            simp only [decide_eq_true_eq, List.mem_cons]
            rintro (h | h)
            · exact hu h
            · exact hu2 h),
          List.countP_cons_of_pos _ _ (by simpa using hu2)]
        have := ih hU'
        omega

theorem keyUniverse_closed (env : SrcMap) (root ty : Str) :
    envClosed env (keyUniverse env root ty) := by
  intro p hp inc hinc
  unfold keyUniverse
  apply List.mem_cons_of_mem
  apply List.mem_map_of_mem
  unfold envNames
  exact List.mem_flatMap.mpr ⟨p, hp, hinc⟩

/-- A successful fetch returns one of the bodies stored in the map. -/
theorem fetch_source_mem {env : SrcMap} {name ty src : Str}
    (h : fetch_source env name ty = some src) : ∃ k, (k, src) ∈ env := by
  unfold fetch_source at h
  dsimp only at h
  split at h
  · next s hlook =>
    split at h
    · exact absurd h (by simp)
    · simp only [Option.some.injEq] at h
      subst h
      exact ⟨_, lookup_mem hlook⟩
  · exact absurd h (by simp)

/-- Every include parsed from a fetched source has its key in a closed
universe. -/
theorem child_key_mem {env : SrcMap} {U : List Str} {name ty src inc : Str}
    (hcl : envClosed env U) (hf : fetch_source env name ty = some src)
    (hi : inc ∈ parse_includes src) : mkKey includeTy inc ∈ U := by
  obtain ⟨k, hk⟩ := fetch_source_mem hf
  exact hcl (k, src) hk inc hi

/-- With fuel exceeding the number of unvisited universe keys, the traversal
never exhausts it. -/
theorem trav_ok_of_fuel (env : SrcMap) (U : List Str) (hcl : envClosed env U) :
    ∀ (fuel : Nat) (name ty : Str) (st : TravSt),
    mkKey ty name ∈ U → st.ok = true → keysLeft U st.visited < fuel →
    (find_includes_recursive env fuel name ty st).ok = true := by
  intro fuel
  induction fuel with
  | zero => intro name ty st _ _ hlt; omega
  | succ fuel ih =>
    intro name ty st hk hok hlt
    rw [find_includes_recursive]
    dsimp only
    split
    · exact hok
    · next hkey =>
      split
      · exact hok
      · next src hsrc =>
        have hdrop : keysLeft U (mkKey ty name :: st.visited) < keysLeft U st.visited :=
          keysLeft_cons_lt hk hkey
        have hres := foldl_inv (P := fun (s : TravSt) =>
            s.ok = true ∧ (mkKey ty name :: st.visited) ⊆ s.visited)
          (fun s inc =>
            find_includes_recursive env fuel inc includeTy
              {s with found := insertFound s.found inc})
          (parse_includes src)
          {st with visited := mkKey ty name :: st.visited}
          ⟨hok, fun _ h => h⟩
          (by
            intro s inc hinc hs
            have hkey2 : mkKey includeTy inc ∈ U := child_key_mem hcl hsrc hinc
            have hfewer : keysLeft U s.visited < fuel := by
              have h1 : keysLeft U s.visited ≤ keysLeft U (mkKey ty name :: st.visited) :=
                keysLeft_anti U hs.2
              omega
            have hok2 := ih inc includeTy {s with found := insertFound s.found inc}
              hkey2 hs.1 hfewer
            refine ⟨hok2, ?_⟩
            have hmono := (trav_le env fuel inc includeTy
              {s with found := insertFound s.found inc}).2
            exact fun x hx => hmono (hs.2 hx))
        exact hres.1

/-- Fuel above the unvisited-key count is spare: one more unit changes
nothing. -/
theorem trav_fuel_succ (env : SrcMap) (U : List Str) (hcl : envClosed env U) :
    ∀ (fuel : Nat) (name ty : Str) (st : TravSt),
    mkKey ty name ∈ U → keysLeft U st.visited < fuel →
    find_includes_recursive env (fuel + 1) name ty st =
      find_includes_recursive env fuel name ty st := by
  intro fuel
  induction fuel with
  | zero => intro name ty st _ hlt; omega
  | succ fuel ih =>
    intro name ty st hk hlt
    conv_lhs => rw [find_includes_recursive]
    conv_rhs => rw [find_includes_recursive]
    dsimp only
    split
    · rfl
    · next hkey =>
      split
    -- a fetch failure ends the branch the same way at both fuels
      · rfl
      · next src hsrc =>
        have hdrop : keysLeft U (mkKey ty name :: st.visited) < keysLeft U st.visited :=
          keysLeft_cons_lt hk hkey
        have hfold : ∀ (l : List Str) (s : TravSt),
            (∀ x ∈ l, mkKey includeTy x ∈ U) →
            (mkKey ty name :: st.visited) ⊆ s.visited →
            l.foldl (fun s inc =>
              find_includes_recursive env (fuel + 1) inc includeTy
                {s with found := insertFound s.found inc}) s =
            l.foldl (fun s inc =>
              find_includes_recursive env fuel inc includeTy
                {s with found := insertFound s.found inc}) s := by
          intro l
          induction l with
          | nil => intro s _ _; rfl
          | cons a l ihl =>
            intro s hmem hsub
            rw [List.foldl_cons, List.foldl_cons]
            have hfewer : keysLeft U s.visited < fuel := by
              have h1 : keysLeft U s.visited ≤ keysLeft U (mkKey ty name :: st.visited) :=
                keysLeft_anti U hsub
              omega
            have hstep : find_includes_recursive env (fuel + 1) a includeTy
                {s with found := insertFound s.found a} =
                find_includes_recursive env fuel a includeTy
                  {s with found := insertFound s.found a} :=
              ih a includeTy _ (hmem a (List.mem_cons_self _ _)) hfewer
            rw [hstep]
            apply ihl
            · exact fun x hx => hmem x (List.mem_cons_of_mem _ hx)
            · have hmono := (trav_le env fuel a includeTy
                {s with found := insertFound s.found a}).2
              exact fun x hx => hmono (hsub hx)
        exact hfold (parse_includes src) _
          (fun x hx => child_key_mem hcl hsrc hx) (fun _ h => h)

/-- Above the proven bound, the traversal's result no longer depends on the
fuel: the recursion has terminated. -/
theorem trav_fuel_stable (env : SrcMap) (U : List Str) (hcl : envClosed env U)
    (name ty : Str) (st : TravSt) (hk : mkKey ty name ∈ U)
    (hst : keysLeft U st.visited ≤ U.length) :
    ∀ fuel, U.length < fuel →
    find_includes_recursive env fuel name ty st =
      find_includes_recursive env (U.length + 1) name ty st := by
  intro fuel
  induction fuel with
  | zero => intro h; omega
  | succ fuel ih =>
    intro h
    by_cases heq : fuel = U.length
    · rw [heq]
    · have hlt : U.length < fuel := by omega
      rw [trav_fuel_succ env U hcl fuel name ty st hk (by omega)]
      exact ih hlt

/-- Fetching is driven by the upper-cased name only. -/
theorem fetch_source_congr {m n : Str} (env : SrcMap) (ty : Str)
    (h : upperStr m = upperStr n) : fetch_source env m ty = fetch_source env n ty := by
  unfold fetch_source
  rw [h]

/-- The fold inside the traversal also only grows the state. -/
theorem trav_fold_le (env : SrcMap) (fuel : Nat) : ∀ (l : List Str) (s : TravSt),
    s.found ⊆ (l.foldl (fun s inc =>
      find_includes_recursive env fuel inc includeTy
        {s with found := insertFound s.found inc}) s).found ∧
    s.visited ⊆ (l.foldl (fun s inc =>
      find_includes_recursive env fuel inc includeTy
        {s with found := insertFound s.found inc}) s).visited := by
  intro l
  induction l with
  | nil => intro s; exact ⟨fun _ h => h, fun _ h => h⟩
  | cons a l ihl =>
    intro s
    have h1 := trav_le env fuel a includeTy {s with found := insertFound s.found a}
    have h2 := ihl (find_includes_recursive env fuel a includeTy
      {s with found := insertFound s.found a})
    constructor
    · refine .trans ?_ (h1.1.trans h2.1)
      intro x hx
      unfold insertFound
      split
      · exact hx
      · exact List.mem_cons_of_mem _ hx
    · exact (h1.2.trans h2.2)

/-- If the fold keeps `ok`, the state it started from had `ok`. -/
theorem trav_fold_ok_le (env : SrcMap) (fuel : Nat) : ∀ (l : List Str) (s : TravSt),
    ((l.foldl (fun s inc =>
      find_includes_recursive env fuel inc includeTy
        {s with found := insertFound s.found inc}) s).ok = true) → s.ok = true := by
  intro l
  induction l with
  | nil => intro s h; exact h
  | cons a l ihl =>
    intro s h
    rw [List.foldl_cons] at h
    have h2 := ihl _ h
    have h3 := trav_ok_le env fuel a includeTy _ h2
    exact h3

/-- Soundness: every name the traversal adds to `found` is reachable. -/
theorem trav_found_sound (env : SrcMap) (root rty : Str) :
    ∀ (fuel : Nat) (name ty : Str) (st : TravSt),
    (∀ x ∈ parseOf env ty name, Reach env root rty x) →
    (∀ x ∈ st.found, Reach env root rty x) →
    ∀ x ∈ (find_includes_recursive env fuel name ty st).found, Reach env root rty x := by
  intro fuel
  induction fuel with
  | zero =>
    intro name ty st _ hst
    rw [find_includes_recursive]
    exact hst
  | succ fuel ih =>
    intro name ty st hframe hst
    rw [find_includes_recursive]
    dsimp only
    split
    · exact hst
    · split
      · exact hst
      · next src hsrc =>
        have hps : parseOf env ty name = parse_includes src := by
          unfold parseOf
          rw [hsrc]
        apply foldl_inv (P := fun (s : TravSt) => ∀ x ∈ s.found, Reach env root rty x)
        · exact hst
        · intro s inc hinc hs
          have hreach : Reach env root rty inc := hframe inc (by rw [hps]; exact hinc)
          apply ih inc includeTy
          · intro x hx
            exact Reach.step hreach hx
          · intro x hx
            have hx2 : x ∈ insertFound s.found inc := hx
            unfold insertFound at hx2
            split at hx2
            · exact hs x hx2
            · rcases List.mem_cons.mp hx2 with hx2 | hx2
              · rw [hx2]; exact hreach
              · exact hs x hx2

theorem parseOf_eq_parse {env : SrcMap} {name ty src : Str}
    (hsrc : fetch_source env name ty = some src) :
    parseOf env ty name = parse_includes src := by
  unfold parseOf
  rw [hsrc]

theorem parseOf_eq_nil {env : SrcMap} {name ty : Str}
    (hsrc : fetch_source env name ty = none) : parseOf env ty name = [] := by
  unfold parseOf
  rw [hsrc]

theorem parseOf_congr {env : SrcMap} {m n : Str} (ty : Str)
    (h : upperStr m = upperStr n) : parseOf env ty m = parseOf env ty n := by
  unfold parseOf
  rw [fetch_source_congr env ty h]

/-- An include key never coincides with a program key. -/
theorem inck_ne_program_key {m name : Str} :
    mkKey includeTy m ≠ mkKey programTy name := by
  intro h
  unfold mkKey includeTy programTy at h
  have e1 : ("include".toList : Str) = ['i', 'n', 'c', 'l', 'u', 'd', 'e'] := rfl
  have e2 : ("program".toList : Str) = ['p', 'r', 'o', 'g', 'r', 'a', 'm'] := rfl
  rw [e1, e2] at h
  simp only [List.cons_append, List.cons.injEq] at h
  exact absurd h.1 (by decide)

/-- Two equal include keys name the same unit up to case. -/
theorem inck_inj_upper {m name : Str} (h : mkKey includeTy m = mkKey includeTy name) :
    upperStr m = upperStr name := by
  unfold mkKey at h
  have h2 := List.append_cancel_left h
  exact (List.cons.injEq _ _ _ _).mp h2 |>.2

/-- Completeness invariant of the traversal.  Given an exemption set `E` of
keys whose pending includes an ancestor call will still insert, a run that
never exhausted its fuel preserves: every found name's include key is
visited, every non-exempt visited include key has all its direct includes in
`found`, and (when this call did process its unit) the call's own direct
includes end up in `found`. -/
theorem trav_complete_inv (env : SrcMap) :
    ∀ (fuel : Nat) (name ty : Str) (st : TravSt) (E : Str → Prop),
    (ty = programTy ∨ ty = includeTy) →
    (∀ m ∈ st.found, mkKey includeTy m ∈ st.visited ∨ mkKey includeTy m = mkKey ty name) →
    (∀ m, mkKey includeTy m ∈ st.visited → ¬ E (mkKey includeTy m) →
      ∀ x ∈ parseOf env includeTy m, x ∈ st.found) →
    (find_includes_recursive env fuel name ty st).ok = true →
    (∀ m ∈ (find_includes_recursive env fuel name ty st).found,
        mkKey includeTy m ∈ (find_includes_recursive env fuel name ty st).visited) ∧
    (∀ m, mkKey includeTy m ∈ (find_includes_recursive env fuel name ty st).visited →
        ¬ E (mkKey includeTy m) →
        ∀ x ∈ parseOf env includeTy m,
          x ∈ (find_includes_recursive env fuel name ty st).found) ∧
    (mkKey ty name ∉ st.visited →
        ∀ x ∈ parseOf env ty name, x ∈ (find_includes_recursive env fuel name ty st).found) := by
  intro fuel
  induction fuel with
  | zero =>
    intro name ty st E _ _ _ hok
    rw [find_includes_recursive] at hok
    exact absurd hok (by simp)
  | succ fuel ih =>
    intro name ty st E hty h1 h2 hok
    rw [find_includes_recursive] at hok ⊢
    dsimp only at hok ⊢
    split at hok
    · next hkey =>
      rw [if_pos hkey]
      refine ⟨?_, h2, ?_⟩
      · intro m hm
        rcases h1 m hm with h | h
        · exact h
        · rw [h]; exact hkey
      · intro habs
        exact absurd hkey habs
    · next hkey =>
      rw [if_neg hkey]
      split at hok
      · next hsrc =>
        refine ⟨?_, ?_, ?_⟩
        · intro m hm
          rcases h1 m hm with h | h
          · exact List.mem_cons_of_mem _ h
          · rw [h]; exact List.mem_cons_self _ _
        · intro m hmv hne x hx
          rcases List.mem_cons.mp hmv with heq | hmv
          · rcases hty with hty2 | hty2
            · rw [hty2] at heq
              exact absurd heq inck_ne_program_key
            · rw [hty2] at heq hsrc
              have hup := inck_inj_upper heq
              rw [parseOf_congr includeTy hup, parseOf_eq_nil hsrc] at hx
              cases hx
          · exact h2 m hmv hne x hx
        · intro _ x hx
          rw [parseOf_eq_nil hsrc] at hx
          cases hx
      · next src hsrc =>
        have hfold : ∀ (l' : List Str) (s t : TravSt),
            t = l'.foldl (fun s inc =>
              find_includes_recursive env fuel inc includeTy
                {s with found := insertFound s.found inc}) s →
            (∀ m ∈ s.found, mkKey includeTy m ∈ s.visited) →
            (∀ m, mkKey includeTy m ∈ s.visited →
              ¬ (E (mkKey includeTy m) ∨ mkKey includeTy m = mkKey ty name) →
              ∀ x ∈ parseOf env includeTy m, x ∈ s.found) →
            t.ok = true →
            (∀ m ∈ t.found, mkKey includeTy m ∈ t.visited) ∧
            (∀ m, mkKey includeTy m ∈ t.visited →
              ¬ (E (mkKey includeTy m) ∨ mkKey includeTy m = mkKey ty name) →
              ∀ x ∈ parseOf env includeTy m, x ∈ t.found) ∧
            (∀ inc ∈ l', inc ∈ t.found) := by
          intro l'
          induction l' with
          | nil =>
            intro s t ht hs1 hs2 _
            subst ht
            exact ⟨hs1, hs2, by intro inc h; cases h⟩
          | cons a l' ihl =>
            intro s t ht hs1 hs2 hokt
            rw [List.foldl_cons] at ht
            have hsok : (find_includes_recursive env fuel a includeTy
                {s with found := insertFound s.found a}).ok = true := by
              apply trav_fold_ok_le env fuel l'
              rw [← ht]
              exact hokt
            have hchild := ih a includeTy {s with found := insertFound s.found a}
              (fun k => E k ∨ k = mkKey ty name) (Or.inr rfl)
              (by
                intro m hm
                have hm2 : m ∈ insertFound s.found a := hm
                unfold insertFound at hm2
                split at hm2
                · exact Or.inl (hs1 m hm2)
                · rcases List.mem_cons.mp hm2 with hm2 | hm2
                  · rw [hm2]; exact Or.inr rfl
                  · exact Or.inl (hs1 m hm2))
              (by
                intro m hmv hne x hx
                have hxs : x ∈ s.found := hs2 m hmv hne x hx
                show x ∈ insertFound s.found a
                unfold insertFound
                split
                · exact hxs
                · exact List.mem_cons_of_mem _ hxs)
              hsok
            obtain ⟨hc1, hc2, -⟩ := hchild
            have hrest := ihl (find_includes_recursive env fuel a includeTy
                {s with found := insertFound s.found a}) t ht hc1 hc2 hokt
            obtain ⟨f1, f2, f3⟩ := hrest
            refine ⟨f1, f2, ?_⟩
            intro inc hinc
            rcases List.mem_cons.mp hinc with hinc | hinc
            · have ha1 : a ∈ insertFound s.found a := by
                unfold insertFound
                split
                · next hmem => exact hmem
                · exact List.mem_cons_self _ _
              have ha2 := (trav_le env fuel a includeTy
                {s with found := insertFound s.found a}).1 ha1
              have ha3 : a ∈ t.found := by
                rw [ht]
                exact (trav_fold_le env fuel l' _).1 ha2
              rw [hinc]
              exact ha3
            · exact f3 inc hinc
        have hmain := hfold (parse_includes src)
          { found := st.found, visited := mkKey ty name :: st.visited, ok := st.ok }
          _ rfl
          (by
            intro m hm
            rcases h1 m hm with h | h
            · exact List.mem_cons_of_mem _ h
            · rw [h]; exact List.mem_cons_self _ _)
          (by
            intro m hmv hne x hx
            rcases List.mem_cons.mp hmv with heq | hmv
            · exact absurd (Or.inr heq) hne
            · exact h2 m hmv (fun hE => hne (Or.inl hE)) x hx)
          hok
        obtain ⟨f1, f2, f3⟩ := hmain
        refine ⟨f1, ?_, ?_⟩
        · intro m hmv hne x hx
          by_cases hkeq : mkKey includeTy m = mkKey ty name
          · rcases hty with hty2 | hty2
            · rw [hty2] at hkeq
              exact absurd hkeq inck_ne_program_key
            · rw [hty2] at hkeq hsrc
              have hup := inck_inj_upper hkeq
              rw [parseOf_congr includeTy hup, parseOf_eq_parse hsrc] at hx
              exact f3 x hx
          · refine f2 m hmv ?_ x hx
            rintro (h | h)
            · exact hne h
            · exact hkeq h
        · intro _ x hx
          rw [parseOf_eq_parse hsrc] at hx
          exact f3 x hx

/-- The standard run (fuel as `get_includes_list` picks it) never exhausts
its fuel. -/
theorem trav_run_ok (env : SrcMap) (root ty : Str) :
    (find_includes_recursive env (travFuel env root ty) root ty ⟨[], [], true⟩).ok = true := by
  apply trav_ok_of_fuel env (keyUniverse env root ty) (keyUniverse_closed env root ty)
  · exact List.mem_cons_self _ _
  · rfl
  · show keysLeft (keyUniverse env root ty) [] < travFuel env root ty
    unfold travFuel
    have h := keysLeft_le (keyUniverse env root ty) []
    omega

/-- Completeness: every reachable name is found by a run that kept its
`ok` flag. -/
theorem trav_reach_mem (env : SrcMap) (root ty : Str)
    (hty : ty = programTy ∨ ty = includeTy) (fuel : Nat)
    (hok : (find_includes_recursive env fuel root ty ⟨[], [], true⟩).ok = true) :
    ∀ x, Reach env root ty x →
      x ∈ (find_includes_recursive env fuel root ty ⟨[], [], true⟩).found := by
  have hinv := trav_complete_inv env fuel root ty ⟨[], [], true⟩ (fun _ => False) hty
    (by intro m hm; cases hm) (by intro m hmv; cases hmv) hok
  obtain ⟨f1, f2, f3⟩ := hinv
  intro x hx
  induction hx with
  | base hb => exact f3 (by intro h; cases h) _ hb
  | step hm hb ihm => exact f2 _ (f1 _ ihm) (fun h => h) _ hb

/-- Soundness for the standard run from empty state. -/
theorem trav_run_sound (env : SrcMap) (root ty : Str) (fuel : Nat) :
    ∀ x ∈ (find_includes_recursive env fuel root ty ⟨[], [], true⟩).found,
      Reach env root ty x := by
  apply trav_found_sound env root ty fuel root ty ⟨[], [], true⟩
  · exact fun x hx => Reach.base hx
  · intro x hx
    cases hx

/-! ## Sorting lemmas -/

theorem strLtB_or (a : Str) : ∀ b : Str, strLtB a b = true ∨ a = b ∨ strLtB b a = true := by
  induction a with
  | nil =>
    intro b
    cases b with
    | nil => exact Or.inr (Or.inl rfl)
    | cons d t => exact Or.inl rfl
  | cons c s ihs =>
    intro b
    cases b with
    | nil => exact Or.inr (Or.inr rfl)
    | cons d t =>
      rcases lt_trichotomy c d with h | h | h
      · left
        unfold strLtB
        rw [if_pos h]
      · subst h
        rcases ihs t with h2 | h2 | h2
        · left
          unfold strLtB
          rw [if_neg (lt_irrefl c), if_pos rfl]
          exact h2
        · right; left; rw [h2]
        · right; right
          unfold strLtB
          rw [if_neg (lt_irrefl c), if_pos rfl]
          exact h2
      · right; right
        unfold strLtB
        rw [if_pos h]

theorem strLtB_trans : ∀ {a b c : Str},
    strLtB a b = true → strLtB b c = true → strLtB a c = true := by
  intro a
  induction a with
  | nil =>
    intro b c h1 h2
    cases b with
    | nil => exact absurd h1 (by rw [strLtB]; simp)
    | cons y t =>
      cases c with
      | nil => exact absurd h2 (by rw [strLtB]; simp)
      | cons z u => rfl
  | cons x s ihs =>
    intro b c h1 h2
    cases b with
    | nil => exact absurd h1 (by rw [strLtB]; simp)
    | cons y t =>
      cases c with
      | nil => exact absurd h2 (by rw [strLtB]; simp)
      | cons z u =>
        unfold strLtB at h1 h2 ⊢
        by_cases hxy : x < y
        · by_cases hyz : y < z
          · rw [if_pos (lt_trans hxy hyz)]
          · rw [if_neg hyz] at h2
            by_cases hyz2 : y = z
            · subst hyz2
              rw [if_pos hxy]
            · rw [if_neg hyz2] at h2
              cases h2
        · rw [if_neg hxy] at h1
          by_cases hxy2 : x = y
          · subst hxy2
            rw [if_pos rfl] at h1
            by_cases hxz : x < z
            · rw [if_pos hxz]
            · rw [if_neg hxz]
              by_cases hxz2 : x = z
              · subst hxz2
                rw [if_neg (lt_irrefl x), if_pos rfl] at h2
                rw [if_pos rfl]
                exact ihs h1 h2
              · rw [if_neg hxz2]
                rw [if_neg, if_neg hxz2] at h2
                · cases h2
                · intro hlt
                  exact hxz hlt
          · rw [if_neg hxy2] at h1
            cases h1

theorem strLeB_trans {a b c : Str} (h1 : strLeB a b = true) (h2 : strLeB b c = true) :
    strLeB a c = true := by
  unfold strLeB at h1 h2 ⊢
  rcases Bool.or_eq_true_iff.mp h1 with h1 | h1
  · rcases Bool.or_eq_true_iff.mp h2 with h2 | h2
    · exact Bool.or_eq_true_iff.mpr (Or.inl (strLtB_trans h1 h2))
    · have : b = c := by simpa using h2
      subst this
      exact Bool.or_eq_true_iff.mpr (Or.inl h1)
  · have : a = b := by simpa using h1
    subst this
    exact h2

theorem strLeB_of_not {a b : Str} (h : strLeB a b = false) : strLeB b a = true := by
  rcases strLtB_or a b with h2 | h2 | h2
  · rw [strLeB, h2] at h
    simp at h
  · subst h2
    rw [strLeB] at h
    simp at h
  · rw [strLeB, h2]
    simp

theorem strLtB_of_le_ne {a b : Str} (h : strLeB a b = true) (hne : a ≠ b) :
    strLtB a b = true := by
  rw [strLeB] at h
  rcases Bool.or_eq_true_iff.mp h with h | h
  · exact h
  · exact absurd (by simpa using h) hne

theorem insertSorted_perm (x : Str) (l : List Str) : (insertSorted x l).Perm (x :: l) := by
  induction l with
  | nil => exact List.Perm.refl _
  | cons y ys ih =>
    unfold insertSorted
    split
    · exact List.Perm.refl _
    · exact (ih.cons y).trans (List.Perm.swap x y ys)

theorem sortStrs_perm (l : List Str) : (sortStrs l).Perm l := by
  induction l with
  | nil => exact List.Perm.refl _
  | cons x xs ih =>
    unfold sortStrs
    exact (insertSorted_perm x (sortStrs xs)).trans (ih.cons x)

theorem mem_sortStrs {x : Str} {l : List Str} : x ∈ sortStrs l ↔ x ∈ l :=
  (sortStrs_perm l).mem_iff

theorem insertSorted_pairwise (x : Str) (l : List Str)
    (h : l.Pairwise (fun a b => strLeB a b = true)) :
    (insertSorted x l).Pairwise (fun a b => strLeB a b = true) := by
  induction l with
  | nil => simp [insertSorted]
  | cons y ys ih =>
    unfold insertSorted
    split
    · next hxy =>
      apply List.Pairwise.cons
      · intro z hz
        rcases List.mem_cons.mp hz with hz | hz
        · rw [hz]
          exact hxy
        · exact strLeB_trans hxy ((List.pairwise_cons.mp h).1 z hz)
      · exact h
    · next hxy =>
      have hyx : strLeB y x = true := strLeB_of_not (Bool.eq_false_iff.mpr hxy)
      apply List.Pairwise.cons
      · intro z hz
        have hz2 := (insertSorted_perm x ys).mem_iff.mp hz
        rcases List.mem_cons.mp hz2 with hz2 | hz2
        · rw [hz2]
          exact hyx
        · exact (List.pairwise_cons.mp h).1 z hz2
      · exact ih (List.pairwise_cons.mp h).2

theorem sortStrs_pairwise (l : List Str) :
    (sortStrs l).Pairwise (fun a b => strLeB a b = true) := by
  induction l with
  | nil => simp [sortStrs]
  | cons x xs ih => exact insertSorted_pairwise x (sortStrs xs) ih

theorem sortStrs_pairwise_lt {l : List Str} (h : l.Nodup) :
    (sortStrs l).Pairwise (fun a b => strLtB a b = true) := by
  have hle := sortStrs_pairwise l
  have hnd : (sortStrs l).Nodup := ((sortStrs_perm l).nodup_iff).mpr h
  exact (hle.and hnd).imp (fun hab => strLtB_of_le_ne hab.1 hab.2)

theorem get_includes_list_valid_eq (env : SrcMap) (root ty : Str)
    (hname : root ≠ []) (hty : ty = programTy ∨ ty = includeTy) :
    get_includes_list env root ty = Except.ok
      { object_name := root
        object_type := ty
        includes_count := (sortStrs (travRun env root ty).found).length
        includes := sortStrs (travRun env root ty).found
        response_text := includesResponseText root ty
          (sortStrs (travRun env root ty).found) } := by
  unfold get_includes_list
  rw [if_neg hname, if_neg (not_not_intro hty)]
  rfl

theorem get_includes_list_ok_elim {env : SrcMap} {root ty : Str} {r : IncludesResult}
    (h : get_includes_list env root ty = Except.ok r) :
    root ≠ [] ∧ (ty = programTy ∨ ty = includeTy) ∧
    r.includes = sortStrs (travRun env root ty).found := by
  unfold get_includes_list at h
  split at h
  · exact Except.noConfusion h
  · next hname =>
    split at h
    · exact Except.noConfusion h
    · next hty2 =>
      have hty := not_not.mp hty2
      refine ⟨hname, hty, ?_⟩
      have := (Except.ok.injEq _ _).mp h.symm
      rw [this]
      rfl

/-- The found set of the standard run is exactly the reachable set. -/
theorem travRun_found_iff (env : SrcMap) (root ty : Str)
    (hty : ty = programTy ∨ ty = includeTy) :
    ∀ x, x ∈ (travRun env root ty).found ↔ Reach env root ty x := by
  intro x
  constructor
  · exact trav_run_sound env root ty _ x
  · exact fun h => trav_reach_mem env root ty hty _ (trav_run_ok env root ty) x h

/-- `found` and `visited` of the standard run have no duplicates. -/
theorem travRun_nodup (env : SrcMap) (root ty : Str) :
    (travRun env root ty).visited.Nodup ∧ (travRun env root ty).found.Nodup :=
  trav_nodup env _ root ty ⟨[], [], true⟩ List.nodup_nil List.nodup_nil

/-- **C3.** For every finite universe of unit names (the remote map is a
finite association list), include cycles included, `DiscoverAll` terminates
— above the computed bound the traversal's result no longer depends on the
fuel, and the bound itself is never exhausted (`ok` stays true); no
`"{kind}:{name}"` key is processed twice within a single call — the
`visited` list, which records exactly one entry per processed key, has no
duplicates; and no include name is double-counted — the `found` set and the
returned `includes` sequence have no duplicates. -/
theorem C3_terminates_no_reprocess_no_doublecount (env : SrcMap) (root ty : Str) :
    (∀ fuel, travFuel env root ty ≤ fuel →
      find_includes_recursive env fuel root ty ⟨[], [], true⟩ = travRun env root ty) ∧
    (travRun env root ty).ok = true ∧
    (travRun env root ty).visited.Nodup ∧
    (travRun env root ty).found.Nodup ∧
    (∀ r, get_includes_list env root ty = Except.ok r → r.includes.Nodup) := by
  refine ⟨?_, trav_run_ok env root ty, (travRun_nodup env root ty).1,
    (travRun_nodup env root ty).2, ?_⟩
  · intro fuel hfuel
    unfold travRun travFuel
    have hst : keysLeft (keyUniverse env root ty) ([] : List Str) ≤
        (keyUniverse env root ty).length := keysLeft_le _ _
    have := trav_fuel_stable env (keyUniverse env root ty)
      (keyUniverse_closed env root ty) root ty ⟨[], [], true⟩
      (List.mem_cons_self _ _) hst fuel (by unfold travFuel at hfuel; omega)
    exact this
  · intro r hr
    obtain ⟨-, -, hinc⟩ := get_includes_list_ok_elim hr
    rw [hinc]
    exact ((sortStrs_perm _).nodup_iff).mpr (travRun_nodup env root ty).2

/-- Witness for C3 on the cyclic graph `cycEnv` rooted at program `A`:
extra fuel does not change the traversal, the run keeps its `ok` flag, and
the returned include list (which contains both `A` and `B`) has no
duplicate. -/
theorem C3_witness :
    find_includes_recursive cycEnv (travFuel cycEnv "A".toList programTy + 3)
        "A".toList programTy ⟨[], [], true⟩ = travRun cycEnv "A".toList programTy ∧
    (travRun cycEnv "A".toList programTy).ok = true ∧
    (travRun cycEnv "A".toList programTy).visited.Nodup := by
  have h := C3_terminates_no_reprocess_no_doublecount cycEnv "A".toList programTy
  exact ⟨h.1 _ (Nat.le_add_right _ 3), h.2.1, h.2.2.1⟩

/-- **C4.** Whenever `get_includes_list` returns a result (acyclic include
graphs in particular, though no acyclicity is needed), its `includes` field
holds exactly the names transitively reachable from the root through the
textual include relation (`Reach`), as a lexicographically sorted sequence
with no duplicates (strictly increasing under `strLtB`). -/
theorem C4_discover_exact_sorted (env : SrcMap) (root ty : Str) (r : IncludesResult)
    (h : get_includes_list env root ty = Except.ok r) :
    (∀ x, x ∈ r.includes ↔ Reach env root ty x) ∧
    r.includes.Pairwise (fun a b => strLtB a b = true) := by
  obtain ⟨hname, hty, hinc⟩ := get_includes_list_ok_elim h
  constructor
  · intro x
    rw [hinc, mem_sortStrs]
    exact travRun_found_iff env root ty hty x
  · rw [hinc]
    exact sortStrs_pairwise_lt (travRun_nodup env root ty).2

/-- Witness for C4 on a small acyclic graph: root program `A` includes `B`
and `C`, and `B` includes `D`; the reported include list is exactly
`[B, C, D]`, each member reachable, sorted strictly. -/
theorem C4_witness :
    ∃ r, get_includes_list
        [((programTy, "A".toList), "INCLUDE b.\nINCLUDE c.".toList),
         ((includeTy, "B".toList), "INCLUDE d.".toList)]
        "a".toList programTy = Except.ok r ∧
      ("B".toList ∈ r.includes ↔ Reach
        [((programTy, "A".toList), "INCLUDE b.\nINCLUDE c.".toList),
         ((includeTy, "B".toList), "INCLUDE d.".toList)]
        "a".toList programTy "B".toList) ∧
      r.includes.Pairwise (fun a b => strLtB a b = true) := by
  refine ⟨_, rfl, ?_⟩
  have h := C4_discover_exact_sorted
    [((programTy, "A".toList), "INCLUDE b.\nINCLUDE c.".toList),
     ((includeTy, "B".toList), "INCLUDE d.".toList)]
    "a".toList programTy _ rfl
  exact ⟨h.1 _, h.2⟩

/-- **C8.** `get_includes_list` fails only on invalid input — an empty root
name, or a kind other than `'program'`/`'include'` — and such a failure is
decided before any fetch: on invalid input the outcome is the same for every
source-fetch collaborator.  For valid input it always returns a result:
missing or unreachable units during traversal never raise (the branch just
ends). -/
theorem C8_raises_only_invalid_input (env env2 : SrcMap) (root ty : Str) :
    ((∃ r, get_includes_list env root ty = Except.ok r) ↔
      (root ≠ [] ∧ (ty = programTy ∨ ty = includeTy))) ∧
    ((root = [] ∨ ¬ (ty = programTy ∨ ty = includeTy)) →
      get_includes_list env root ty = get_includes_list env2 root ty) := by
  constructor
  · constructor
    · rintro ⟨r, hr⟩
      obtain ⟨h1, h2, -⟩ := get_includes_list_ok_elim hr
      exact ⟨h1, h2⟩
    · rintro ⟨h1, h2⟩
      exact ⟨_, get_includes_list_valid_eq env root ty h1 h2⟩
  · intro hbad
    unfold get_includes_list
    rcases hbad with hbad | hbad
    · rw [if_pos hbad, if_pos hbad]
    · by_cases hname : root = []
      · rw [if_pos hname, if_pos hname]
      · rw [if_neg hname, if_neg hname, if_pos hbad, if_pos hbad]

/-- Witness for C8: with an unsupported kind the call fails identically
under two different collaborators, and with valid input it succeeds. -/
theorem C8_witness :
    get_includes_list cycEnv "A".toList "class".toList =
      get_includes_list [] "A".toList "class".toList ∧
    ∃ r, get_includes_list cycEnv "A".toList programTy = Except.ok r := by
  constructor
  · exact (C8_raises_only_invalid_input cycEnv [] "A".toList "class".toList).2
      (Or.inr (by decide))
  · exact ((C8_raises_only_invalid_input cycEnv [] "A".toList programTy).1).mpr
      ⟨by decide, Or.inl rfl⟩

/-! ## The include-statement grammar (C7) -/

theorem tok_not_space {c : Char} (h : isTokChar c = true) : ¬ isPySpace c = true := by
  intro hs
  simp only [isPySpace, decide_eq_true_eq] at hs
  rcases hs with h1 | h1 | h1 | h1 | h1 | h1 <;> (subst h1; exact absurd h (by decide))

theorem takeWhile_append_all {α : Type _} {p : α → Bool} {xs : List α} (ys : List α)
    (h : ∀ c ∈ xs, p c = true) : (xs ++ ys).takeWhile p = xs ++ ys.takeWhile p := by
  induction xs with
  | nil => rfl
  | cons a l ih =>
    rw [List.cons_append, List.takeWhile_cons_of_pos (h a (List.mem_cons_self _ _)),
      ih (fun c hc => h c (List.mem_cons_of_mem _ hc)), List.cons_append]

theorem dropWhile_append_all {α : Type _} {p : α → Bool} {xs : List α} (ys : List α)
    (h : ∀ c ∈ xs, p c = true) : (xs ++ ys).dropWhile p = ys.dropWhile p := by
  induction xs with
  | nil => rfl
  | cons a l ih =>
    rw [List.cons_append, List.dropWhile_cons_of_pos (h a (List.mem_cons_self _ _)),
      ih (fun c hc => h c (List.mem_cons_of_mem _ hc))]

/-- The operational token matcher agrees with the declarative grammar of the
regex `^INCLUDE\s+([A-Z0-9_<>']+)\s*\.`: after the keyword, the rest of the
line decomposes into nonempty whitespace, a nonempty run of token-class
characters, optional whitespace, a period, and an arbitrary tail. -/
theorem matchIncludeToken_iff (l tok : Str) :
    matchIncludeToken l = some tok ↔
    ∃ ws rest tail, l = ws ++ tok ++ rest ++ '.' :: tail ∧
      ws ≠ [] ∧ (∀ c ∈ ws, isPySpace c = true) ∧
      tok ≠ [] ∧ (∀ c ∈ tok, isTokChar c = true) ∧
      (∀ c ∈ rest, isPySpace c = true) := by
  constructor
  · intro h
    unfold matchIncludeToken at h
    split at h
    · exact absurd h (by simp)
    · next hws =>
      dsimp only at h
      split at h
      · exact absurd h (by simp)
      · next htok =>
        split at h
        · next tail heq =>
          simp only [Option.some.injEq] at h
          subst h
          refine ⟨l.takeWhile isPySpace,
            ((l.dropWhile isPySpace).dropWhile isTokChar).takeWhile isPySpace,
            tail, ?_, hws, ?_, htok, ?_, ?_⟩
          · rw [List.append_assoc, List.append_assoc, ← heq,
              List.takeWhile_append_dropWhile, List.takeWhile_append_dropWhile,
              List.takeWhile_append_dropWhile]
          · exact fun c hc => List.mem_takeWhile_imp hc
          · exact fun c hc => List.mem_takeWhile_imp hc
          · exact fun c hc => List.mem_takeWhile_imp hc
        · exact absurd h (by simp)
  · rintro ⟨ws, rest, tail, heq, hws, hwsp, htok, htokc, hrestp⟩
    have hassoc : ws ++ tok ++ rest ++ '.' :: tail =
        ws ++ (tok ++ (rest ++ '.' :: tail)) := by
      rw [List.append_assoc, List.append_assoc]
    rw [hassoc] at heq
    subst heq
    unfold matchIncludeToken
    have e2 : (tok ++ (rest ++ '.' :: tail)).takeWhile isPySpace = [] := by
      cases tok with
      | nil => exact absurd rfl htok
      | cons t ts =>
        rw [List.cons_append]
        exact List.takeWhile_cons_of_neg
          (tok_not_space (htokc t (List.mem_cons_self _ _)))
    have e1 : (ws ++ (tok ++ (rest ++ '.' :: tail))).takeWhile isPySpace = ws := by
      rw [takeWhile_append_all _ hwsp, e2, List.append_nil]
    have e3 : (ws ++ (tok ++ (rest ++ '.' :: tail))).dropWhile isPySpace =
        tok ++ (rest ++ '.' :: tail) := by
      rw [dropWhile_append_all _ hwsp]
      cases tok with
      | nil => exact absurd rfl htok
      | cons t ts =>
        rw [List.cons_append]
        exact List.dropWhile_cons_of_neg
          (tok_not_space (htokc t (List.mem_cons_self _ _)))
    have e7 : (rest ++ '.' :: tail).takeWhile isTokChar = [] := by
      cases rest with
      | nil => exact List.takeWhile_cons_of_neg (by decide)
      | cons r rs =>
        rw [List.cons_append]
        refine List.takeWhile_cons_of_neg ?_
        intro hr
        exact tok_not_space hr (hrestp r (List.mem_cons_self _ _))
    have e4 : (tok ++ (rest ++ '.' :: tail)).takeWhile isTokChar = tok := by
      rw [takeWhile_append_all _ htokc, e7, List.append_nil]
    have e5 : (tok ++ (rest ++ '.' :: tail)).dropWhile isTokChar =
        rest ++ '.' :: tail := by
      rw [dropWhile_append_all _ htokc]
      cases rest with
      | nil => exact List.dropWhile_cons_of_neg (by decide)
      | cons r rs =>
        rw [List.cons_append]
        refine List.dropWhile_cons_of_neg ?_
        intro hr
        exact tok_not_space hr (hrestp r (List.mem_cons_self _ _))
    have e6 : (rest ++ '.' :: tail).dropWhile isPySpace = '.' :: tail := by
      rw [dropWhile_append_all _ hrestp]
      exact List.dropWhile_cons_of_neg (by decide)
    rw [if_neg (by rw [e1]; exact hws)]
    dsimp only
    rw [e3, e4, e5, e6]
    rw [if_neg htok]
    rfl

/-- Counterexample to **C7** as stated: the parser does not skip an empty
bare name.  On the line `INCLUDE <>.` the token `<>` strips to the empty
name, and `_parse_includes` collects it: the result is `[""]`, not `[]`. -/
theorem C7_counterexample :
    parse_includes "INCLUDE <>.".toList = [[]] ∧
    ([] : Str) ∈ parse_includes "INCLUDE <>.".toList := ⟨by decide, by decide⟩

/-- **C7 (amended).** A line contributes only if, after whitespace
collapsing, trimming and upper-casing, it starts with `INCLUDE` plus a space
and contains a period; the extracted token obeys the declarative grammar
(whitespace, token-class run, whitespace, period) and is stripped of
`<`, `>`, `'` decoration; the resulting bare name is skipped only when it is
already collected — an empty bare name is collected, not skipped. -/
theorem C7_parse_line_characterisation :
    (∀ (acc : List Str) (line : Str),
      ¬ (("INCLUDE ".toList).isPrefixOf (cleanLine line) = true ∧
          (cleanLine line).contains '.' = true) →
      parseIncludesLine acc line = acc) ∧
    (∀ l tok, matchIncludeToken l = some tok ↔
      ∃ ws rest tail, l = ws ++ tok ++ rest ++ '.' :: tail ∧
        ws ≠ [] ∧ (∀ c ∈ ws, isPySpace c = true) ∧
        tok ≠ [] ∧ (∀ c ∈ tok, isTokChar c = true) ∧
        (∀ c ∈ rest, isPySpace c = true)) ∧
    (∀ (acc : List Str) (line : Str) (tok : Str),
      ("INCLUDE ".toList).isPrefixOf (cleanLine line) = true →
      (cleanLine line).contains '.' = true →
      matchIncludeToken ((cleanLine line).drop 7) = some tok →
      parseIncludesLine acc line =
        if stripDecoration tok ∈ acc then acc else acc ++ [stripDecoration tok]) := by
  refine ⟨?_, matchIncludeToken_iff, ?_⟩
  · intro acc line hno
    unfold parseIncludesLine
    rw [if_neg hno]
  · intro acc line tok h1 h2 h3
    unfold parseIncludesLine
    rw [if_pos ⟨h1, h2⟩, h3]

/-- Witness for the amended C7: a concrete candidate line is collected, a
non-candidate line is ignored, and a duplicate is skipped. -/
theorem C7_amended_witness :
    parseIncludesLine [] " include  z1 .".toList = ["Z1".toList] ∧
    parseIncludesLine ["Z1".toList] "WRITE z2.".toList = ["Z1".toList] ∧
    parseIncludesLine ["Z1".toList] "INCLUDE z1.".toList = ["Z1".toList] := by
  have h := C7_parse_line_characterisation
  refine ⟨?_, ?_, ?_⟩
  · rw [h.2.2 [] " include  z1 .".toList "Z1".toList (by decide) (by decide) (by decide)]
    decide
  · exact h.1 ["Z1".toList] "WRITE z2.".toList (by decide)
  · rw [h.2.2 ["Z1".toList] "INCLUDE z1.".toList "Z1".toList (by decide) (by decide)
      (by decide)]
    decide

/-! ## Case invariance (C10) -/

theorem upperStr_cons (c : Char) (l : Str) : upperStr (c :: l) = c.toUpper :: upperStr l := rfl

theorem char_toNat_injective {c d : Char} (h : c.toNat = d.toNat) : c = d := by
  apply Char.ext
  apply UInt32.ext
  exact h

theorem toUpper_eq_self {c : Char} (h : ¬ (c.toNat ≥ 97 ∧ c.toNat ≤ 122)) :
    c.toUpper = c := by
  unfold Char.toUpper
  rw [if_neg h]

theorem toUpper_toNat_lower {c : Char} (h : c.toNat ≥ 97 ∧ c.toNat ≤ 122) :
    c.toUpper.toNat = c.toNat - 32 := by
  unfold Char.toUpper
  rw [if_pos h]
  unfold Char.ofNat
  rw [dif_pos]
  · rfl
  · left
    omega

theorem isPySpace_false_of_ge {c : Char} (h : 33 ≤ c.toNat) : isPySpace c = false := by
  simp only [isPySpace, decide_eq_false_iff_not]
  rintro (h1 | h1 | h1 | h1 | h1 | h1) <;> (subst h1; exact absurd h (by decide))

/-- Two characters equal after upper-casing agree on being whitespace. -/
theorem upper_eq_space_rel {c c' : Char} (h : c.toUpper = c'.toUpper) :
    isPySpace c = isPySpace c' := by
  by_cases h1 : c.toNat ≥ 97 ∧ c.toNat ≤ 122
  · by_cases h2 : c'.toNat ≥ 97 ∧ c'.toNat ≤ 122
    · rw [isPySpace_false_of_ge (by omega), isPySpace_false_of_ge (by omega)]
    · have hc' : c' = c.toUpper := by rw [h, toUpper_eq_self h2]
      have hn : c'.toNat = c.toNat - 32 := by rw [hc', toUpper_toNat_lower h1]
      rw [isPySpace_false_of_ge (by omega), isPySpace_false_of_ge (by omega)]
  · by_cases h2 : c'.toNat ≥ 97 ∧ c'.toNat ≤ 122
    · have hc : c = c'.toUpper := by rw [← h, toUpper_eq_self h1]
      have hn : c.toNat = c'.toNat - 32 := by rw [hc, toUpper_toNat_lower h2]
      rw [isPySpace_false_of_ge (by omega), isPySpace_false_of_ge (by omega)]
    · have : c = c' := by rw [← toUpper_eq_self h1, h, toUpper_eq_self h2]
      rw [this]

/-- Two characters equal after upper-casing agree on being a newline. -/
theorem upper_eq_newline_rel {c c' : Char} (h : c.toUpper = c'.toUpper) :
    (c = '\n') ↔ (c' = '\n') := by
  have hnl : ('\n').toNat = 10 := by decide
  by_cases h1 : c.toNat ≥ 97 ∧ c.toNat ≤ 122
  · by_cases h2 : c'.toNat ≥ 97 ∧ c'.toNat ≤ 122
    · constructor
      · intro he; rw [he] at h1; exact absurd h1 (by decide)
      · intro he; rw [he] at h2; exact absurd h2 (by decide)
    · have hc' : c' = c.toUpper := by rw [h, toUpper_eq_self h2]
      have hn : c'.toNat = c.toNat - 32 := by rw [hc', toUpper_toNat_lower h1]
      constructor
      · intro he; rw [he] at h1; exact absurd h1 (by decide)
      · intro he
        rw [he] at hn
        rw [hnl] at hn
        omega
  · by_cases h2 : c'.toNat ≥ 97 ∧ c'.toNat ≤ 122
    · have hc : c = c'.toUpper := by rw [← h, toUpper_eq_self h1]
      have hn : c.toNat = c'.toNat - 32 := by rw [hc, toUpper_toNat_lower h2]
      constructor
      · intro he
        rw [he] at hn
        rw [hnl] at hn
        omega
      · intro he; rw [he] at h2; exact absurd h2 (by decide)
    · have : c = c' := by rw [← toUpper_eq_self h1, h, toUpper_eq_self h2]
      rw [this]

theorem collapseAux_upper_congr : ∀ (s s' : Str) (b : Bool),
    upperStr s = upperStr s' →
    upperStr (collapseAux b s) = upperStr (collapseAux b s') := by
  intro s
  induction s with
  | nil =>
    intro s' b h
    cases s' with
    | nil => rfl
    | cons c t => exact absurd h (by simp [upperStr])
  | cons c cs ih =>
    intro s' b h
    cases s' with
    | nil => exact absurd h (by simp [upperStr])
    | cons c' cs' =>
      rw [upperStr_cons, upperStr_cons] at h
      obtain ⟨hc, hcs⟩ := (List.cons.injEq _ _ _ _).mp h
      unfold collapseAux
      rw [upper_eq_space_rel hc]
      by_cases hsp : isPySpace c' = true
      · rw [if_pos hsp, if_pos hsp]
        cases b with
        | true =>
          rw [if_pos rfl, if_pos rfl]
          exact ih cs' true hcs
        | false =>
          rw [if_neg (by decide), if_neg (by decide), upperStr_cons, upperStr_cons,
            ih cs' true hcs]
      · rw [if_neg hsp, if_neg hsp]
        rw [upperStr_cons, upperStr_cons, hc, ih cs' false hcs]

theorem dropWhile_upper_congr : ∀ {s s' : Str}, upperStr s = upperStr s' →
    upperStr (s.dropWhile isPySpace) = upperStr (s'.dropWhile isPySpace) := by
  intro s
  induction s with
  | nil =>
    intro s' h
    cases s' with
    | nil => rfl
    | cons c t => exact absurd h (by simp [upperStr])
  | cons c cs ih =>
    intro s' h
    cases s' with
    | nil => exact absurd h (by simp [upperStr])
    | cons c' cs' =>
      rw [upperStr_cons, upperStr_cons] at h
      obtain ⟨hc, hcs⟩ := (List.cons.injEq _ _ _ _).mp h
      by_cases hsp : isPySpace c = true
      · rw [List.dropWhile_cons_of_pos hsp,
          List.dropWhile_cons_of_pos (by rw [← upper_eq_space_rel hc]; exact hsp)]
        exact ih hcs
      · rw [List.dropWhile_cons_of_neg hsp,
          List.dropWhile_cons_of_neg (by rw [← upper_eq_space_rel hc]; exact hsp)]
        rw [upperStr_cons, upperStr_cons, hc, hcs]

theorem upperStr_reverse (l : Str) : upperStr l.reverse = (upperStr l).reverse :=
  List.map_reverse _ _

theorem stripWS_upper_congr {s s' : Str} (h : upperStr s = upperStr s') :
    upperStr (stripWS s) = upperStr (stripWS s') := by
  unfold stripWS
  have h1 := dropWhile_upper_congr h
  have h2 : upperStr (s.dropWhile isPySpace).reverse =
      upperStr (s'.dropWhile isPySpace).reverse := by
    rw [upperStr_reverse, upperStr_reverse, h1]
  have h3 := dropWhile_upper_congr h2
  rw [upperStr_reverse, upperStr_reverse, h3]

theorem cleanLine_congr {s s' : Str} (h : upperStr s = upperStr s') :
    cleanLine s = cleanLine s' := by
  unfold cleanLine collapseWS
  exact stripWS_upper_congr (collapseAux_upper_congr s s' false h)

theorem splitLines_ne_nil : ∀ s : Str, splitLines s ≠ [] := by
  intro s
  cases s with
  | nil => simp [splitLines]
  | cons c cs =>
    unfold splitLines
    split
    · simp
    · split <;> simp

theorem splitLines_upper_congr : ∀ {s s' : Str}, upperStr s = upperStr s' →
    List.Forall₂ (fun a b => upperStr a = upperStr b) (splitLines s) (splitLines s') := by
  intro s
  induction s with
  | nil =>
    intro s' h
    cases s' with
    | nil => exact List.Forall₂.cons rfl List.Forall₂.nil
    | cons c t => exact absurd h (by simp [upperStr])
  | cons c cs ih =>
    intro s' h
    cases s' with
    | nil => exact absurd h (by simp [upperStr])
    | cons c' cs' =>
      rw [upperStr_cons, upperStr_cons] at h
      obtain ⟨hc, hcs⟩ := (List.cons.injEq _ _ _ _).mp h
      by_cases hnl : c = '\n'
      · have hnl' : c' = '\n' := (upper_eq_newline_rel hc).mp hnl
        unfold splitLines
        rw [if_pos hnl, if_pos hnl']
        exact List.Forall₂.cons rfl (ih hcs)
      · have hnl' : ¬ c' = '\n' := fun he => hnl ((upper_eq_newline_rel hc).mpr he)
        unfold splitLines
        rw [if_neg hnl, if_neg hnl']
        have hrec := @ih cs' hcs
        rcases hsplit : splitLines cs with _ | ⟨l, ls⟩
        · exact absurd hsplit (splitLines_ne_nil cs)
        · rcases hsplit' : splitLines cs' with _ | ⟨l', ls'⟩
          · exact absurd hsplit' (splitLines_ne_nil cs')
          · rw [hsplit, hsplit'] at hrec
            cases hrec with
            | cons hl hls =>
              exact List.Forall₂.cons
                (by rw [upperStr_cons, upperStr_cons, hc, hl]) hls

theorem foldl_congr_forall2 {α σ : Type _} {R : α → α → Prop} {g : σ → α → σ}
    (hg : ∀ s a b, R a b → g s a = g s b) :
    ∀ {l l' : List α}, List.Forall₂ R l l' → ∀ s, l.foldl g s = l'.foldl g s := by
  intro l l' hrel
  induction hrel with
  | nil => intro s; rfl
  | cons hab hrest ihr =>
    intro s
    rw [List.foldl_cons, List.foldl_cons]
    next a b l l' =>
      rw [hg s a b hab]
      exact ihr _

theorem parse_includes_congr {s s' : Str} (h : upperStr s = upperStr s') :
    parse_includes s = parse_includes s' := by
  unfold parse_includes
  refine foldl_congr_forall2 ?_ (splitLines_upper_congr h) []
  intro acc a b hab
  unfold parseIncludesLine
  rw [cleanLine_congr hab]

/-- Every reachable name is invariant under upper-casing (it came out of
`_parse_includes`). -/
theorem reach_upper {env : SrcMap} {root ty x : Str} (h : Reach env root ty x) :
    upperStr x = x := by
  cases h with
  | base hb =>
    unfold parseOf at hb
    split at hb
    · exact parse_includes_upper hb
    · cases hb
  | step hm hb =>
    unfold parseOf at hb
    split at hb
    · exact parse_includes_upper hb
    · cases hb

/-- Root names equal up to case drive the traversal identically. -/
theorem find_includes_name_congr (env : SrcMap) (fuel : Nat) (ty : Str) (st : TravSt)
    {root root' : Str} (h : upperStr root = upperStr root') :
    find_includes_recursive env fuel root ty st =
      find_includes_recursive env fuel root' ty st := by
  cases fuel with
  | zero => rfl
  | succ fuel =>
    rw [find_includes_recursive, find_includes_recursive]
    dsimp only
    rw [show mkKey ty root = mkKey ty root' by unfold mkKey; rw [h],
      fetch_source_congr env ty h]

theorem keyUniverse_name_congr (env : SrcMap) (ty : Str) {root root' : Str}
    (h : upperStr root = upperStr root') :
    keyUniverse env root ty = keyUniverse env root' ty := by
  unfold keyUniverse mkKey
  rw [h]

/-- **C10 part 2 bridge**: the include list does not depend on the root's
letter case. -/
theorem get_includes_list_root_case (env : SrcMap) (ty : Str) {root root' : Str}
    (h : upperStr root = upperStr root') :
    (get_includes_list env root ty).toOption.map (fun r => r.includes) =
    (get_includes_list env root' ty).toOption.map (fun r => r.includes) := by
  have hlen : root = [] ↔ root' = [] := by
    constructor
    · intro he
      subst he
      have : upperStr root' = [] := h.symm
      simpa [upperStr] using this
    · intro he
      subst he
      have : upperStr root = [] := h
      simpa [upperStr] using this
  unfold get_includes_list
  by_cases hn : root = []
  · rw [if_pos hn, if_pos (hlen.mp hn)]
  · rw [if_neg hn, if_neg (fun he => hn (hlen.mpr he))]
    by_cases hty : ty = programTy ∨ ty = includeTy
    · rw [if_neg (not_not_intro hty), if_neg (not_not_intro hty)]
      unfold travFuel
      rw [keyUniverse_name_congr env ty h,
        find_includes_name_congr env _ ty ⟨[], [], true⟩ h]
      rfl
    · rw [if_pos hty, if_pos hty]

/-- Pointwise view of source maps whose bodies agree up to letter case. -/
theorem srcmap_upper_rel {env env' : SrcMap}
    (h : env.map (fun p => (p.1, upperStr p.2)) = env'.map (fun p => (p.1, upperStr p.2))) :
    List.Forall₂ (fun p p' => p.1 = p'.1 ∧ upperStr p.2 = upperStr p'.2) env env' := by
  induction env generalizing env' with
  | nil =>
    cases env' with
    | nil => exact List.Forall₂.nil
    | cons q t => exact absurd h (by simp)
  | cons p t ih =>
    cases env' with
    | nil => exact absurd h (by simp)
    | cons q t' =>
      simp only [List.map_cons, List.cons.injEq, Prod.mk.injEq] at h
      exact List.Forall₂.cons ⟨h.1.1, h.1.2⟩ (ih (by
        have := h.2
        simpa using this))

theorem lookup_upper_rel {env env' : SrcMap}
    (hrel : List.Forall₂ (fun p p' => p.1 = p'.1 ∧ upperStr p.2 = upperStr p'.2) env env')
    (k : Str × Str) :
    (env.lookup k = none ∧ env'.lookup k = none) ∨
    (∃ v v', env.lookup k = some v ∧ env'.lookup k = some v' ∧ upperStr v = upperStr v') := by
  induction hrel with
  | nil => exact Or.inl ⟨rfl, rfl⟩
  | cons hpq hrest ihr =>
    next p q t t' =>
      rw [List.lookup, List.lookup]
      by_cases hk : k == p.1
      · have hkq : (k == q.1) = true := by rw [← hpq.1]; exact hk
        rw [hk, hkq]
        exact Or.inr ⟨p.2, q.2, rfl, rfl, hpq.2⟩
      · have hkq : (k == q.1) = false := by
          rw [← hpq.1]
          exact Bool.eq_false_iff.mpr hk
        rw [Bool.eq_false_iff.mpr hk, hkq]
        exact ihr

theorem fetch_source_upper_rel {env env' : SrcMap}
    (hrel : List.Forall₂ (fun p p' => p.1 = p'.1 ∧ upperStr p.2 = upperStr p'.2) env env')
    (name ty : Str) :
    (fetch_source env name ty = none ∧ fetch_source env' name ty = none) ∨
    (∃ v v', fetch_source env name ty = some v ∧ fetch_source env' name ty = some v' ∧
      upperStr v = upperStr v') := by
  unfold fetch_source
  dsimp only
  rcases lookup_upper_rel hrel (if ty = programTy then programTy else includeTy,
    upperStr name) with ⟨h1, h2⟩ | ⟨v, v', h1, h2, hv⟩
  · rw [h1, h2]
    exact Or.inl ⟨rfl, rfl⟩
  · rw [h1, h2]
    dsimp only
    by_cases hv0 : v = []
    · have hv0' : v' = [] := by
        have : upperStr v' = [] := by rw [← hv, hv0]; rfl
        simpa [upperStr] using this
      rw [if_pos hv0, if_pos hv0']
      exact Or.inl ⟨rfl, rfl⟩
    · have hv0' : ¬ v' = [] := by
        intro he
        apply hv0
        have : upperStr v = [] := by rw [hv, he]; rfl
        simpa [upperStr] using this
      rw [if_neg hv0, if_neg hv0']
      exact Or.inr ⟨v, v', rfl, rfl, hv⟩

theorem find_includes_src_congr {env env' : SrcMap}
    (hrel : List.Forall₂ (fun p p' => p.1 = p'.1 ∧ upperStr p.2 = upperStr p'.2) env env') :
    ∀ (fuel : Nat) (name ty : Str) (st : TravSt),
    find_includes_recursive env fuel name ty st =
      find_includes_recursive env' fuel name ty st := by
  intro fuel
  induction fuel with
  | zero => intro name ty st; rfl
  | succ fuel ih =>
    intro name ty st
    rw [find_includes_recursive, find_includes_recursive]
    dsimp only
    rcases fetch_source_upper_rel hrel name ty with ⟨h1, h2⟩ | ⟨v, v', h1, h2, hv⟩
    · rw [h1, h2]
    · rw [h1, h2]
      dsimp only
      rw [parse_includes_congr hv]
      split
      · rfl
      · have hfold : ∀ (l : List Str) (s : TravSt),
            l.foldl (fun s inc =>
              find_includes_recursive env fuel inc includeTy
                {s with found := insertFound s.found inc}) s =
            l.foldl (fun s inc =>
              find_includes_recursive env' fuel inc includeTy
                {s with found := insertFound s.found inc}) s := by
          intro l
          induction l with
          | nil => intro s; rfl
          | cons a l ihl =>
            intro s
            rw [List.foldl_cons, List.foldl_cons, ih a includeTy, ihl]
        exact hfold _ _

theorem envNames_src_congr {env env' : SrcMap}
    (hrel : List.Forall₂ (fun p p' => p.1 = p'.1 ∧ upperStr p.2 = upperStr p'.2) env env') :
    envNames env = envNames env' := by
  unfold envNames
  induction hrel with
  | nil => rfl
  | cons hpq hrest ihr =>
    rw [List.flatMap_cons, List.flatMap_cons]
    next p q t t' =>
      rw [parse_includes_congr hpq.2, ihr]

/-- **C10 part 3 bridge**: results agree whenever the two collaborators
serve sources equal up to letter case. -/
theorem get_includes_list_source_case {env env' : SrcMap}
    (h : env.map (fun p => (p.1, upperStr p.2)) = env'.map (fun p => (p.1, upperStr p.2)))
    (root ty : Str) :
    get_includes_list env root ty = get_includes_list env' root ty := by
  have hrel := srcmap_upper_rel h
  unfold get_includes_list
  by_cases hn : root = []
  · rw [if_pos hn, if_pos hn]
  · rw [if_neg hn, if_neg hn]
    by_cases hty : ty = programTy ∨ ty = includeTy
    · rw [if_neg (not_not_intro hty), if_neg (not_not_intro hty)]
      unfold travFuel keyUniverse
      rw [envNames_src_congr hrel, find_includes_src_congr hrel]
    · rw [if_pos hty, if_pos hty]

/-- **C10.** Every name `get_includes_list` returns is fully upper-case
(invariant under `upperStr`); the returned include set does not depend on
the letter case of the root argument; and it does not depend on the letter
case of the include statements in the fetched source texts. -/
theorem C10_includes_upper_invariant :
    (∀ (env : SrcMap) (root ty : Str) (r : IncludesResult),
      get_includes_list env root ty = Except.ok r →
      ∀ n ∈ r.includes, upperStr n = n) ∧
    (∀ (env : SrcMap) (ty : Str) (root root' : Str), upperStr root = upperStr root' →
      (get_includes_list env root ty).toOption.map (fun r => r.includes) =
      (get_includes_list env root' ty).toOption.map (fun r => r.includes)) ∧
    (∀ (env env' : SrcMap) (root ty : Str),
      env.map (fun p => (p.1, upperStr p.2)) = env'.map (fun p => (p.1, upperStr p.2)) →
      get_includes_list env root ty = get_includes_list env' root ty) := by
  refine ⟨?_, ?_, ?_⟩
  · intro env root ty r h n hn
    obtain ⟨hname, hty, hinc⟩ := get_includes_list_ok_elim h
    rw [hinc, mem_sortStrs] at hn
    exact reach_upper (trav_run_sound env root ty _ n hn)
  · intro env ty root root' h
    exact get_includes_list_root_case env ty h
  · intro env env' root ty h
    exact get_includes_list_source_case h root ty

/-- Witness for C10: on the cyclic graph, a returned name is upper-case, a
lower-case root gives the same include set, and lower-case include
statements give the same result. -/
theorem C10_witness :
    upperStr "B".toList = "B".toList ∧
    (get_includes_list cycEnv "a".toList programTy).toOption.map (fun r => r.includes) =
      (get_includes_list cycEnv "A".toList programTy).toOption.map (fun r => r.includes) ∧
    get_includes_list cycEnv "A".toList programTy =
      get_includes_list cycEnvU "A".toList programTy := by
  refine ⟨?_, ?_, ?_⟩
  · exact C10_includes_upper_invariant.1 cycEnv "A".toList programTy _ rfl
      "B".toList (by decide)
  · exact C10_includes_upper_invariant.2.1 cycEnv programTy "a".toList "A".toList
      (by decide)
  · exact C10_includes_upper_invariant.2.2 cycEnv cycEnvU "A".toList programTy
      (by decide)

example :
    parse_enhancements_from_xml (fun _ => some "X".toList)
        "<enh:source>QQ==</enh:source>".toList
      = [{ name := "enhancement_1".toList, type_ := "enhancement".toList,
           source_code := some "X".toList, description := none }] := by decide

example : parse_enhancement_source_from_xml (fun _ => none) "plain".toList
    = "plain".toList := by decide

example : parse_enhancement_source_from_xml (fun _ => none)
    "<source><![CDATA[abc.]]></source>".toList = "abc.".toList := by decide

/-- A successful single-object fetch echoes the requested name. -/
theorem single_ok_object_name {R : EnhRemote} {b64 : Str → Option Str}
    {name : Str} {mctx : Option Str} {r : SingleResp}
    (h : get_enhancements_for_single_object R b64 name mctx = Except.ok r) :
    r.object_name = name := by
  unfold get_enhancements_for_single_object at h
  split at h
  · exact Except.noConfusion h
  · split at h
    · exact Except.noConfusion h
    · split at h
      · exact Except.noConfusion h
      · split at h
        · have := (Except.ok.injEq _ _).mp h
          rw [← this]
        · exact Except.noConfusion h

/-- The include loop of `get_enhancements` appends exactly the successful
fetches, in order. -/
theorem enh_fold_filterMap (R : EnhRemote) (b64 : Str → Option Str)
    (program : Option Str) :
    ∀ (l : List Str) (init : List SingleResp),
    l.foldl (fun acc include_name =>
      match get_enhancements_for_single_object R b64 include_name program with
      | .ok r => acc ++ [r]
      | .error _ => acc) init
    = init ++ l.filterMap
        (fun i => (get_enhancements_for_single_object R b64 i program).toOption) := by
  intro l
  induction l with
  | nil => intro init; simp
  | cons a l ih =>
    intro init
    rw [List.foldl_cons, List.filterMap_cons]
    cases h : get_enhancements_for_single_object R b64 a program with
    | ok r =>
      rw [ih]
      simp [Except.toOption, h]
    | error e =>
      rw [ih]
      simp [Except.toOption, h]

/-- The shape of a successful nested `get_enhancements` call: the report
collects the main response and every successful include response, with the
totals computed over exactly those. -/
theorem get_enhancements_nested_eq (R : EnhRemote) (b64 : Str → Option Str)
    (object_name : Str) (program : Option Str) (main : SingleResp)
    (incs : IncludesResult)
    (hname : object_name ≠ [])
    (hmain : get_enhancements_for_single_object R b64 object_name program = Except.ok main)
    (hincs : get_includes_list R.srcMap object_name main.object_type = Except.ok incs) :
    get_enhancements R b64 object_name program true = Except.ok (.nested
      { main_object_name := object_name
        main_object_type := main.object_type
        include_nested := true
        total_objects_analyzed := (main :: incs.includes.filterMap
          (fun i => (get_enhancements_for_single_object R b64 i program).toOption)).length
        total_enhancements_found := ((main :: incs.includes.filterMap
          (fun i => (get_enhancements_for_single_object R b64 i program).toOption)).map
            (fun r => r.enhancement_count)).sum
        objects := main :: incs.includes.filterMap
          (fun i => (get_enhancements_for_single_object R b64 i program).toOption) }) := by
  unfold get_enhancements
  rw [if_neg hname]
  dsimp only
  rw [hmain]
  dsimp only
  rw [if_neg (by simp)]
  rw [hincs]
  dsimp only
  rw [enh_fold_filterMap]
  rfl

/-- **C5.** Kind probing checks the remote collections in the fixed order
Class, then Program, then Include, resolving the unit as the first kind
whose existence check (HTTP 200) succeeds; in particular a name that exists
only under the Program probe resolves as Program with no context, and the
outcome then does not depend on the Include collection at all — no Include
context resolution is attempted. -/
theorem C5_kind_probe_order (R R' : EnhRemote) (name : Str) (mctx : Option Str) :
    (probe_is_200 (R.classProbe name) = true →
      ∃ info, determine_object_type_and_path R name mctx = Except.ok info ∧
        info.type_ = "class".toList) ∧
    (probe_is_200 (R.classProbe name) = false →
      probe_is_200 (R.programProbe name) = true →
      ∃ info, determine_object_type_and_path R name mctx = Except.ok info ∧
        info.type_ = "program".toList ∧ info.context = none) ∧
    (probe_is_200 (R.classProbe name) = false →
      probe_is_200 (R.programProbe name) = false →
      ∀ body, R.includeProbe name = ProbeRes.resp 200 body →
      ∀ prog, mctx = some prog →
      ∃ info, determine_object_type_and_path R name mctx = Except.ok info ∧
        info.type_ = "include".toList) ∧
    (R.classProbe name = R'.classProbe name →
      R.programProbe name = R'.programProbe name →
      (probe_is_200 (R.classProbe name) = true ∨
        probe_is_200 (R.programProbe name) = true) →
      determine_object_type_and_path R name mctx =
        determine_object_type_and_path R' name mctx) := by
  refine ⟨?_, ?_, ?_, ?_⟩
  · intro hc
    unfold determine_object_type_and_path
    rw [if_pos hc]
    exact ⟨_, rfl, rfl⟩
  · intro hc hp
    unfold determine_object_type_and_path
    rw [if_neg (by rw [hc]; simp), if_pos hp]
    exact ⟨_, rfl, rfl, rfl⟩
  · intro hc hp body hb prog hprog
    unfold determine_object_type_and_path
    rw [if_neg (by rw [hc]; simp), if_neg (by rw [hp]; simp), hb]
    dsimp only
    rw [if_pos rfl, hprog]
    exact ⟨_, rfl, rfl⟩
  · intro h1 h2 hor
    unfold determine_object_type_and_path
    rw [h1, h2]
    by_cases hcls : probe_is_200 (R'.classProbe name) = true
    · rw [if_pos hcls, if_pos hcls]
    · have hp : probe_is_200 (R'.programProbe name) = true := by
        rcases hor with h | h
        · rw [h1] at h
          exact absurd h hcls
        · rw [← h2]
          exact h
      rw [if_neg hcls, if_neg hcls, if_pos hp, if_pos hp]

/-- Witness for C5: on a remote where only the Program probe answers 200,
the name resolves as Program with no context, and replacing the Include
collection (and everything else downstream) changes nothing. -/
theorem C5_witness :
    (∃ info, determine_object_type_and_path progOnlyRemote "X".toList none =
      Except.ok info ∧ info.type_ = "program".toList ∧ info.context = none) ∧
    determine_object_type_and_path progOnlyRemote "X".toList none =
      determine_object_type_and_path cycRemote "X".toList none := by
  have h := C5_kind_probe_order progOnlyRemote cycRemote "X".toList none
  exact ⟨h.2.1 (by decide) (by decide), h.2.2.2 rfl rfl (Or.inr (by decide))⟩

/-- Counterexample to **C9** as stated: on the payload `hello`, which
matches no known layout, the multi-fragment decoder
`_parse_enhancements_from_xml` returns the empty fragment list — the
payload is not stored verbatim in any returned fragment. -/
theorem C9_counterexample :
    enhSourceScanAux ("hello".toList).length [] "hello".toList = [] ∧
    parse_enhancements_from_xml (fun _ => none) "hello".toList = [] :=
  ⟨by decide, by decide⟩

/-- **C9 (amended).** On a payload matching neither the Base64
tagged-element layout nor the character-data layout, the single-fragment
decoder returns the payload verbatim without raising, while the
multi-fragment decoder returns the empty fragment list (not the payload). -/
theorem C9_amended_unrecognized_layout (b64 : Str → Option Str) (xml : Str) :
    (scanFirst srcTagAt xml = none → scanFirst cdataAt xml = none →
      parse_enhancement_source_from_xml b64 xml = xml) ∧
    (enhSourceScanAux xml.length [] xml = [] →
      parse_enhancements_from_xml b64 xml = []) := by
  constructor
  · intro h1 h2
    unfold parse_enhancement_source_from_xml
    rw [h1, h2]
  · intro h
    unfold parse_enhancements_from_xml
    rw [h]
    rfl

/-- Witness for the amended C9 on the payload `plain`. -/
theorem C9_amended_witness :
    parse_enhancement_source_from_xml (fun _ => none) "plain".toList = "plain".toList ∧
    parse_enhancements_from_xml (fun _ => none) "plain".toList = [] := by
  have h := C9_amended_unrecognized_layout (fun _ => none) "plain".toList
  exact ⟨h.1 (by decide) (by decide), h.2 (by decide)⟩

/-- Counterexample to **C1** as stated: in the three-include scenario where
`C`'s enrichment fetch fails, the returned report is identical whether `C`
failed with a 500 or with a 404, and carries no entry mentioning `C` at all
— the combined response has no `perUnitErrors` component and the failure is
dropped from the report (it is only logged). -/
theorem C1_counterexample :
    get_enhancements failEnv b64c "A".toList none true =
      get_enhancements failEnv2 b64c "A".toList none true ∧
    ∃ c, get_enhancements failEnv b64c "A".toList none true =
        Except.ok (.nested c) ∧
      c.objects.map (fun r => r.object_name) =
        ["A".toList, "B".toList, "D".toList] ∧
      ¬ "C".toList ∈ c.objects.map (fun r => r.object_name) :=
  ⟨by decide, _, rfl, by decide, by decide⟩

/-- **C1 (amended).** When an include's enrichment fetch fails during a
recursive call, the failure is not recorded in the returned report: the
report type has no error map, the failed include contributes no entry to
`objects`, and the remaining includes are still processed. -/
theorem C1_amended_failure_unrecorded (R : EnhRemote) (b64 : Str → Option Str)
    (object_name : Str) (program : Option Str) (main : SingleResp)
    (incs : IncludesResult)
    (hname : object_name ≠ [])
    (hmain : get_enhancements_for_single_object R b64 object_name program =
      Except.ok main)
    (hincs : get_includes_list R.srcMap object_name main.object_type =
      Except.ok incs) :
    ∃ c, get_enhancements R b64 object_name program true = Except.ok (.nested c) ∧
      c.objects = main :: incs.includes.filterMap
        (fun i => (get_enhancements_for_single_object R b64 i program).toOption) ∧
      ∀ i ∈ incs.includes, ∀ e,
        get_enhancements_for_single_object R b64 i program = Except.error e →
        i ∉ c.objects.map (fun r => r.object_name) := by
  refine ⟨_, get_enhancements_nested_eq R b64 object_name program main incs
    hname hmain hincs, rfl, ?_⟩
  intro i hi e he hmem
  rw [List.map_cons, List.mem_cons] at hmem
  rcases hmem with hmem | hmem
  · rw [single_ok_object_name hmain] at hmem
    rw [hmem] at he
    rw [he] at hmain
    exact Except.noConfusion hmain
  · rw [List.mem_map] at hmem
    obtain ⟨r, hr, hrname⟩ := hmem
    rw [List.mem_filterMap] at hr
    obtain ⟨j, hj, hjr⟩ := hr
    have hjok : get_enhancements_for_single_object R b64 j program = Except.ok r := by
      cases hcall : get_enhancements_for_single_object R b64 j program with
      | ok r2 =>
        rw [hcall] at hjr
        simp only [Except.toOption] at hjr
        rw [(Option.some.injEq _ _).mp hjr]
      | error e2 =>
        rw [hcall] at hjr
        simp [Except.toOption] at hjr
    have hji : j = i := by
      rw [← hrname, single_ok_object_name hjok]
    rw [hji] at hjok
    rw [he] at hjok
    exact Except.noConfusion hjok

/-- Witness for the amended C1 in the concrete three-include scenario:
`C` fails, appears nowhere in the report, and `B`, `D` are still there. -/
theorem C1_amended_witness :
    ∃ c, get_enhancements failEnv b64c "A".toList none true =
        Except.ok (.nested c) ∧
      ¬ "C".toList ∈ c.objects.map (fun r => r.object_name) ∧
      "D".toList ∈ c.objects.map (fun r => r.object_name) := by
  obtain ⟨c, hc, hobj, hnot⟩ := C1_amended_failure_unrecorded failEnv b64c
    "A".toList none _ _ (by decide) rfl rfl
  refine ⟨c, hc, ?_, ?_⟩
  · exact hnot "C".toList (by decide) (.httpError 500 "err".toList) (by decide)
  · rw [hobj]
    decide

/-- **C2.** A recursive call whose root fetch succeeds is never aborted by a
failing include: the report lists the main response followed by exactly the
successful include responses (so the remaining includes are still fetched),
`total_objects_analyzed` counts exactly the units that produced a result
(root plus successful includes), and `total_enhancements_found` sums
`enhancement_count` over exactly those units. -/
theorem C2_partial_failure_totals (R : EnhRemote) (b64 : Str → Option Str)
    (object_name : Str) (program : Option Str) (main : SingleResp)
    (incs : IncludesResult)
    (hname : object_name ≠ [])
    (hmain : get_enhancements_for_single_object R b64 object_name program =
      Except.ok main)
    (hincs : get_includes_list R.srcMap object_name main.object_type =
      Except.ok incs) :
    ∃ c, get_enhancements R b64 object_name program true = Except.ok (.nested c) ∧
      c.objects = main :: incs.includes.filterMap
        (fun i => (get_enhancements_for_single_object R b64 i program).toOption) ∧
      c.total_objects_analyzed = 1 + (incs.includes.filterMap
        (fun i => (get_enhancements_for_single_object R b64 i program).toOption)).length ∧
      c.total_enhancements_found =
        (c.objects.map (fun r => r.enhancement_count)).sum := by
  refine ⟨_, get_enhancements_nested_eq R b64 object_name program main incs
    hname hmain hincs, rfl, ?_, rfl⟩
  simp [Nat.add_comm]

/-- Witness for C2: in the concrete scenario (three discovered includes,
the second one failing) the report analyzes 3 units and sums fragments over
the two successful units and the root only. -/
theorem C2_witness :
    ∃ c, get_enhancements failEnv b64c "A".toList none true =
        Except.ok (.nested c) ∧
      c.total_objects_analyzed = 3 ∧ c.total_enhancements_found = 1 := by
  obtain ⟨c, hc, hobj, hlen, hsum⟩ := C2_partial_failure_totals failEnv b64c
    "A".toList none _ _ (by decide) rfl rfl
  refine ⟨c, hc, ?_, ?_⟩
  · rw [hlen]
    decide
  · rw [hsum, hobj]
    decide

/-- Counterexample to **C6** as stated: with the cyclic graph (`A` includes
`B`, `B` includes `A`) the root `A` is preserved in the discovered includes
— and is therefore analyzed a second time by the recursive call: the report
carries two entries named `A`. -/
theorem C6_counterexample :
    (∃ r, get_includes_list cycEnv "A".toList programTy = Except.ok r ∧
      "A".toList ∈ r.includes) ∧
    ∃ c, get_enhancements cycRemote b64c "A".toList none true =
        Except.ok (.nested c) ∧
      (c.objects.map (fun r => r.object_name)).count "A".toList = 2 :=
  ⟨⟨_, rfl, by decide⟩, _, rfl, by decide⟩

/-- **C6 (amended).** The root's own name, when reachable through a cycle,
is preserved in the discovered includes; but the recursive call then
analyzes the root's enrichment twice, not once: the report contains the
root's entry once as the main object and once more as a discovered
include. -/
theorem C6_amended_root_reanalyzed (R : EnhRemote) (b64 : Str → Option Str)
    (object_name : Str) (program : Option Str) (main : SingleResp)
    (incs : IncludesResult)
    (hname : object_name ≠ [])
    (hmain : get_enhancements_for_single_object R b64 object_name program =
      Except.ok main)
    (hincs : get_includes_list R.srcMap object_name main.object_type =
      Except.ok incs) :
    (Reach R.srcMap object_name main.object_type (upperStr object_name) →
      upperStr object_name ∈ incs.includes) ∧
    (object_name ∈ incs.includes →
      ∃ c, get_enhancements R b64 object_name program true = Except.ok (.nested c) ∧
        2 ≤ (c.objects.map (fun r => r.object_name)).count object_name) := by
  obtain ⟨-, hty, hinc⟩ := get_includes_list_ok_elim hincs
  constructor
  · intro hreach
    rw [hinc, mem_sortStrs]
    exact (travRun_found_iff R.srcMap object_name main.object_type hty _).mpr hreach
  · intro hmem
    refine ⟨_, get_enhancements_nested_eq R b64 object_name program main incs
      hname hmain hincs, ?_⟩
    rw [List.map_cons, single_ok_object_name hmain, List.count_cons_self]
    have hmm : object_name ∈ (incs.includes.filterMap
        (fun i => (get_enhancements_for_single_object R b64 i program).toOption)).map
        (fun r => r.object_name) := by
      rw [List.mem_map]
      refine ⟨main, ?_, single_ok_object_name hmain⟩
      rw [List.mem_filterMap]
      exact ⟨object_name, hmem, by rw [hmain]; rfl⟩
    have := List.count_pos_iff.mpr hmm
    omega

/-- Witness for the amended C6 on the cyclic remote: `A` is reachable from
itself, appears in the include list, and is counted twice in the report. -/
theorem C6_amended_witness :
    upperStr "A".toList ∈
      (sortStrs (travRun cycRemote.srcMap "A".toList programTy).found) ∧
    ∃ c, get_enhancements cycRemote b64c "A".toList none true =
        Except.ok (.nested c) ∧
      2 ≤ (c.objects.map (fun r => r.object_name)).count "A".toList := by
  have h := C6_amended_root_reanalyzed cycRemote b64c "A".toList none _ _
    (by decide) rfl rfl
  constructor
  · have h1 := h.1
    have hty : ("program".toList : Str) = programTy := rfl
    have hb : Reach cycRemote.srcMap "A".toList "program".toList "B".toList :=
      Reach.base (by decide)
    have ha : Reach cycRemote.srcMap "A".toList "program".toList (upperStr "A".toList) :=
      Reach.step hb (by decide)
    exact h1 ha
  · exact h.2 (by decide)
